import Mathlib

/-
  Verification development for the feature/label engineering pipeline
  (src/source/features.py of the Invest repository).

  The embedding models pandas float columns by an exact IEEE-style value
  domain `V` (NaN, +inf, -inf, or an exact rational), tables by lists of
  structured rows, and `groupby("ticker").transform`-style computations by
  applying a series function to the subsequence of rows sharing the row's
  ticker.  The transcendental functions `np.log` (on positive arguments)
  and square root (inside the rolling standard deviation) are abstracted as
  parameters `lg sq : ℚ → ℚ`; no verified property depends on their values
  beyond explicitly stated hypotheses.
-/

set_option maxHeartbeats 1000000

namespace Invest

/-- IEEE-style extended value: NaN, +infinity, -infinity or an exact
finite (rational) number.  Signed zero is collapsed to `fin 0`. -/
inductive V where
  | nan : V
  | pinf : V
  | ninf : V
  | fin : ℚ → V
deriving DecidableEq, Repr, Inhabited

/-- Is the value NaN? -/
def V.isNan : V → Bool
  | .nan => true
  | _ => false

/-- Is the value finite? -/
def V.isFin : V → Bool
  | .fin _ => true
  | _ => false

/-- Is the value not an infinity (i.e. NaN or finite)? -/
def V.noInf : V → Bool
  | .pinf => false
  | .ninf => false
  | _ => true

/-- IEEE negation. -/
def V.neg : V → V
  | .nan => .nan
  | .pinf => .ninf
  | .ninf => .pinf
  | .fin q => .fin (-q)

/-- IEEE addition (exact on finite values). -/
def V.add : V → V → V
  | .nan, _ => .nan
  | _, .nan => .nan
  | .pinf, .ninf => .nan
  | .ninf, .pinf => .nan
  | .pinf, _ => .pinf
  | _, .pinf => .pinf
  | .ninf, _ => .ninf
  | _, .ninf => .ninf
  | .fin a, .fin b => .fin (a + b)

/-- IEEE subtraction. -/
def V.sub (a b : V) : V := V.add a (V.neg b)

/-- IEEE multiplication (exact on finite values; `0 * inf = NaN`). -/
def V.mul : V → V → V
  | .nan, _ => .nan
  | _, .nan => .nan
  | .pinf, .pinf => .pinf
  | .pinf, .ninf => .ninf
  | .ninf, .pinf => .ninf
  | .ninf, .ninf => .pinf
  | .pinf, .fin b => if 0 < b then .pinf else if b < 0 then .ninf else .nan
  | .fin a, .pinf => if 0 < a then .pinf else if a < 0 then .ninf else .nan
  | .ninf, .fin b => if 0 < b then .ninf else if b < 0 then .pinf else .nan
  | .fin a, .ninf => if 0 < a then .ninf else if a < 0 then .pinf else .nan
  | .fin a, .fin b => .fin (a * b)

/-- IEEE division (exact on finite values; division of a nonzero finite
value by zero yields a signed infinity, `0/0 = NaN`, `x/inf = 0`;
the collapsed zero is treated as `+0`). -/
def V.div : V → V → V
  | .nan, _ => .nan
  | _, .nan => .nan
  | .pinf, .pinf => .nan
  | .pinf, .ninf => .nan
  | .ninf, .pinf => .nan
  | .ninf, .ninf => .nan
  | .pinf, .fin b => if 0 ≤ b then .pinf else .ninf
  | .ninf, .fin b => if 0 ≤ b then .ninf else .pinf
  | .fin _, .pinf => .fin 0
  | .fin _, .ninf => .fin 0
  | .fin a, .fin b =>
      if b = 0 then (if 0 < a then .pinf else if a < 0 then .ninf else .nan)
      else .fin (a / b)

/-- IEEE strict comparison (`NaN` is incomparable). -/
def V.lt : V → V → Bool
  | .nan, _ => false
  | _, .nan => false
  | .ninf, .ninf => false
  | .ninf, _ => true
  | _, .ninf => false
  | .pinf, _ => false
  | _, .pinf => true
  | .fin a, .fin b => decide (a < b)

/-- IEEE non-strict comparison (`NaN` is incomparable). -/
def V.le : V → V → Bool
  | .nan, _ => false
  | _, .nan => false
  | .ninf, _ => true
  | _, .ninf => false
  | _, .pinf => true
  | .pinf, _ => false
  | .fin a, .fin b => decide (a ≤ b)

/-- `Series.clip(lower=0)`. -/
def V.clip0 : V → V
  | .nan => .nan
  | .pinf => .pinf
  | .ninf => .fin 0
  | .fin q => if q ≤ 0 then .fin 0 else .fin q

/-- `Series.replace(0, np.nan)`. -/
def V.rep0nan : V → V
  | .fin q => if q = 0 then .nan else .fin q
  | v => v

/-- `Series.replace([np.inf, -np.inf], np.nan)` applied to one value. -/
def V.deinf : V → V
  | .pinf => .nan
  | .ninf => .nan
  | v => v

/-- `np.log`, with the positive-argument branch abstracted by `lg`
(`log NaN = NaN`, `log 0 = -inf`, `log` of a negative number is `NaN`,
`log inf = inf`). -/
def vlog (lg : ℚ → ℚ) : V → V
  | .nan => .nan
  | .pinf => .pinf
  | .ninf => .nan
  | .fin q => if 0 < q then .fin (lg q) else if q = 0 then .ninf else .nan

/-- Square root with the nonnegative-argument branch abstracted by `sq`. -/
def vsqrt (sq : ℚ → ℚ) : V → V
  | .nan => .nan
  | .pinf => .pinf
  | .ninf => .nan
  | .fin q => if q < 0 then .nan else .fin (sq q)

/-! ### Series primitives (pandas Series/rolling/ewm operations) -/

/-- Value of a series at an index (`NaN` when out of range). -/
def atV (s : List V) (i : Nat) : V := s.getD i V.nan

/-- A series operation defined pointwise from the whole input series and
the position. -/
def idxMap (g : List V → Nat → V) (s : List V) : List V :=
  (List.range s.length).map (g s)

/-- `Series.pct_change(k)` (no forward fill): `s[i]/s[i-k] - 1`. -/
def pctChange (k : Nat) : List V → List V :=
  idxMap fun s i => if k ≤ i then V.sub (V.div (atV s i) (atV s (i - k))) (V.fin 1) else V.nan

/-- `Series.shift(k)` for `k ≥ 0`. -/
def shiftPos (k : Nat) : List V → List V :=
  idxMap fun s i => if k ≤ i then atV s (i - k) else V.nan

/-- `Series.shift(-h)` (looks `h` observations into the future). -/
def shiftNeg (h : Nat) : List V → List V :=
  idxMap fun s i => if i + h < s.length then atV s (i + h) else V.nan

/-- `Series.diff()`. -/
def diffV : List V → List V :=
  idxMap fun s i => if 1 ≤ i then V.sub (atV s i) (atV s (i - 1)) else V.nan

/-- The trailing window of length `w` ending at index `i`. -/
def winAt (w : Nat) (s : List V) (i : Nat) : List V :=
  (s.drop (i + 1 - w)).take w

/-- Sum of a series of values with IEEE addition. -/
def vsum (l : List V) : V := l.foldl V.add (V.fin 0)

/-- `Series.rolling(w, min_periods=w).mean()`: defined only when the full
window of `w` observations is available and free of NaN. -/
def rollMean (w : Nat) : List V → List V :=
  idxMap fun s i =>
    if w ≤ i + 1 ∧ (winAt w s i).all (fun x => !x.isNan) then
      V.div (vsum (winAt w s i)) (V.fin (w : ℚ))
    else V.nan

/-- `Series.rolling(w, min_periods=w).std()` (sample standard deviation,
`ddof = 1`; the square root is abstracted by `sq`). -/
def rollStd (sq : ℚ → ℚ) (w : Nat) : List V → List V :=
  idxMap fun s i =>
    if w ≤ i + 1 ∧ (winAt w s i).all (fun x => !x.isNan) then
      vsqrt sq (V.div
        (vsum ((winAt w s i).map (fun x =>
          V.mul (V.sub x (V.div (vsum (winAt w s i)) (V.fin (w : ℚ))))
                (V.sub x (V.div (vsum (winAt w s i)) (V.fin (w : ℚ)))))))
        (V.fin ((w - 1 : Nat) : ℚ)))
    else V.nan

/-! ### Exponentially weighted mean (`ewm(alpha, adjust=False)`, pandas
algorithm with `ignore_na=False`) -/

/-- State of the pandas EWM aggregation: current weighted average, weight
of the accumulated average, and number of non-NaN observations seen. -/
structure EwSt where
  avg : V
  wt : ℚ
  nobs : Nat
deriving DecidableEq, Repr

/-- One step of the pandas `ewm(adjust=False, ignore_na=False)` mean. -/
def ewmStep (a : ℚ) (st : EwSt) (x : V) : EwSt :=
  if st.avg.isNan then
    if x.isNan then st
    else ⟨x, 1, st.nobs + 1⟩
  else
    if x.isNan then ⟨st.avg, st.wt * (1 - a), st.nobs⟩
    else
      ⟨V.div (V.add (V.mul (V.fin (st.wt * (1 - a))) st.avg) (V.mul (V.fin a) x))
             (V.fin (st.wt * (1 - a) + a)),
       1, st.nobs + 1⟩

/-- Outputs of the EWM mean from a given state: the running average,
masked to NaN until `minp` observations have contributed. -/
def ewmGo (a : ℚ) (minp : Nat) (st : EwSt) : List V → List V
  | [] => []
  | x :: rest =>
      let st' := ewmStep a st x
      (if minp ≤ st'.nobs then st'.avg else V.nan) :: ewmGo a minp st' rest

/-- `Series.ewm(alpha=a, adjust=False, min_periods=minp).mean()`. -/
def ewmMean (a : ℚ) (minp : Nat) (s : List V) : List V :=
  ewmGo a minp ⟨V.nan, 1, 0⟩ s

/-! ### The Wilder RSI helper (`_rsi`) -/

/-- The gain series of `_rsi`: `close.diff().clip(lower=0)`. -/
def gainSeries (s : List V) : List V := (diffV s).map V.clip0

/-- The loss series of `_rsi`: `(-close.diff()).clip(lower=0)`. -/
def lossSeries (s : List V) : List V := (diffV s).map (fun d => V.clip0 (V.neg d))

/-- `avg_gain` of `_rsi`: Wilder smoothing of the gains. -/
def avgGainF (window : Nat) (s : List V) : List V :=
  ewmMean (1 / (window : ℚ)) window (gainSeries s)

/-- `avg_loss` of `_rsi`: Wilder smoothing of the losses. -/
def avgLossF (window : Nat) (s : List V) : List V :=
  ewmMean (1 / (window : ℚ)) window (lossSeries s)

/-- Combines smoothed gain and loss into the oscillator value:
`rs = g / l.replace(0, nan)`, `rsi = 100 - 100/(1 + rs)`. -/
def rsiOf (g l : V) : V :=
  V.sub (V.fin 100) (V.div (V.fin 100) (V.add (V.fin 1) (V.div g (V.rep0nan l))))

/-- `_rsi(close, window)`: the classic Wilder relative strength index. -/
def rsiF (window : Nat) (s : List V) : List V :=
  List.zipWith rsiOf (avgGainF window s) (avgLossF window s)

/-! ### Tables, grouping by ticker -/

/-- A normalized observation row (output schema of `load_long_dataset`;
`date` abstracts the coerced calendar date as an integer). -/
structure Row where
  date : Int
  ticker : String
  open_ : V
  high : V
  low : V
  close : V
  volume : V
  adjustedClose : V
  adj_close : V
deriving DecidableEq, Repr, Inhabited

/-- Enumeration of a list with explicit start index (used to pair each row
with its position). -/
def enumF {α : Type _} (n : Nat) : List α → List (Nat × α)
  | [] => []
  | x :: xs => (n, x) :: enumF (n + 1) xs

/-- The values of the column `vs` (aligned with `t`) at the rows of `t`
satisfying `p`, in order. -/
def maskBy {α : Type _} (p : α → Bool) (t : List α) (vs : List V) : List V :=
  (t.zip vs).filterMap fun q => if p q.1 then some q.2 else none

/-- The values of `vs` at the rows of `t` whose ticker is `tk`, in order
(`vs` is a column aligned with `t`). -/
def tkMask {α : Type _} (tkOf : α → String) (tk : String) (t : List α) (vs : List V) : List V :=
  maskBy (fun x => tkOf x == tk) t vs

/-- Number of rows with ticker `tk` among the first `j` rows of `t`
(the rank of row `j` inside its ticker's subsequence). -/
def rankAt {α : Type _} (tkOf : α → String) (t : List α) (j : Nat) (tk : String) : Nat :=
  ((t.take j).filter (fun x => tkOf x == tk)).length

/-- `groupby(ticker).transform(f)` over the column `vs` aligned with `t`:
row `j` receives the value of `f` applied to its ticker's subsequence of
`vs`, at the row's rank within that subsequence. -/
def gbtOn {α : Type _} (tkOf : α → String) (f : List V → List V) (t : List α) (vs : List V) :
    List V :=
  (enumF 0 t).map fun jr =>
    (f (tkMask tkOf (tkOf jr.2) t vs)).getD (rankAt tkOf t jr.1 (tkOf jr.2)) V.nan

/-! ### Configuration (`FeatureConfig`; I/O path fields omitted) -/

/-- The semantic fields of the source `FeatureConfig` dataclass. -/
structure FeatureConfig where
  min_history : Nat
  horizon_weekly : Nat
  horizon_monthly : Nat
  vol_windows : List Nat
  ma_windows : List Nat
  mom_windows : List Nat
  rsi_window : Nat
deriving DecidableEq, Repr

/-- The source defaults: `min_history=252`, horizons `5`/`21`, windows
`(10,21,63)`, `(10,21,63,126,252)`, `(5,21,63,126,252)`, `rsi_window=14`. -/
def defaultCfg : FeatureConfig :=
  ⟨252, 5, 21, [10, 21, 63], [10, 21, 63, 126, 252], [5, 21, 63, 126, 252], 14⟩

/-! ### `build_features` -/

/-- Column `ret_1d = groupby(ticker).adj_close.pct_change(1)`. -/
def colRet (t : List Row) : List V :=
  gbtOn Row.ticker (pctChange 1) t (t.map Row.adj_close)

/-- Column `groupby(ticker).adj_close.shift(1)`. -/
def colShift1 (t : List Row) : List V :=
  gbtOn Row.ticker (shiftPos 1) t (t.map Row.adj_close)

/-- Column `logret_1d = log(adj_close) - log(adj_close.shift(1))`. -/
def colLogret (lg : ℚ → ℚ) (t : List Row) : List V :=
  List.zipWith V.sub ((t.map Row.adj_close).map (vlog lg)) ((colShift1 t).map (vlog lg))

/-- Column `mom_{w}d = pct_change(w)`, with infinities replaced by NaN. -/
def colMom (w : Nat) (t : List Row) : List V :=
  (gbtOn Row.ticker (pctChange w) t (t.map Row.adj_close)).map V.deinf

/-- Column `ma_{w} = rolling(w, min_periods=w).mean()` of `adj_close`. -/
def colMa (w : Nat) (t : List Row) : List V :=
  gbtOn Row.ticker (rollMean w) t (t.map Row.adj_close)

/-- Column `price_to_ma_{w} = adj_close / ma_{w} - 1`. -/
def colPma (w : Nat) (t : List Row) : List V :=
  List.zipWith (fun c m => V.sub (V.div c m) (V.fin 1)) (t.map Row.adj_close) (colMa w t)

/-- Column `vol_{w} = rolling(w).std()` of `logret_1d`, per ticker. -/
def colVol (lg sq : ℚ → ℚ) (w : Nat) (t : List Row) : List V :=
  gbtOn Row.ticker (rollStd sq w) t (colLogret lg t)

/-- Column `logvol = log(volume.replace(0, nan))` (row-local). -/
def colLogvol (lg : ℚ → ℚ) (t : List Row) : List V :=
  t.map fun r => vlog lg (V.rep0nan r.volume)

/-- Column: rolling mean of `logvol` over 63 observations, per ticker. -/
def colVolMu (lg : ℚ → ℚ) (t : List Row) : List V :=
  gbtOn Row.ticker (rollMean 63) t (colLogvol lg t)

/-- Column: rolling standard deviation of `logvol` over 63 observations. -/
def colVolSd (lg sq : ℚ → ℚ) (t : List Row) : List V :=
  gbtOn Row.ticker (rollStd sq 63) t (colLogvol lg t)

/-- Column `logvol_z_63 = (logvol - mu) / sd`. -/
def colLogvolZ (lg sq : ℚ → ℚ) (t : List Row) : List V :=
  List.zipWith V.div (List.zipWith V.sub (colLogvol lg t) (colVolMu lg t)) (colVolSd lg sq t)

/-- Column `hl_range = high / low - 1` (row-local). -/
def colHl (t : List Row) : List V :=
  t.map fun r => V.sub (V.div r.high r.low) (V.fin 1)

/-- Column `oc_change = close / open - 1` (row-local). -/
def colOc (t : List Row) : List V :=
  t.map fun r => V.sub (V.div r.close r.open_) (V.fin 1)

/-- Column `rsi_{n} = groupby(ticker).adj_close.transform(_rsi)`. -/
def colRsi (n : Nat) (t : List Row) : List V :=
  gbtOn Row.ticker (rsiF n) t (t.map Row.adj_close)

/-- The derived feature columns of one row (window-indexed columns are
stored as lists aligned with the configured window lists). -/
structure Feats where
  ret_1d : V
  logret_1d : V
  mom_vals : List V
  ma_vals : List V
  price_to_ma_vals : List V
  vol_vals : List V
  logvol : V
  logvol_z_63 : V
  hl_range : V
  oc_change : V
  rsi : V
deriving DecidableEq, Repr, Inhabited

/-- The feature values assigned to row `j` of table `t`. -/
def featsAt (lg sq : ℚ → ℚ) (cfg : FeatureConfig) (t : List Row) (j : Nat) : Feats :=
  ⟨(colRet t).getD j V.nan,
   (colLogret lg t).getD j V.nan,
   cfg.mom_windows.map (fun w => (colMom w t).getD j V.nan),
   cfg.ma_windows.map (fun w => (colMa w t).getD j V.nan),
   cfg.ma_windows.map (fun w => (colPma w t).getD j V.nan),
   cfg.vol_windows.map (fun w => (colVol lg sq w t).getD j V.nan),
   (colLogvol lg t).getD j V.nan,
   (colLogvolZ lg sq t).getD j V.nan,
   (colHl t).getD j V.nan,
   (colOc t).getD j V.nan,
   (colRsi cfg.rsi_window t).getD j V.nan⟩

/-- `build_features(df, cfg)`: every input row, in order, augmented with
its derived feature columns. -/
def build_features (lg sq : ℚ → ℚ) (cfg : FeatureConfig) (t : List Row) : List (Row × Feats) :=
  (enumF 0 t).map fun jr => (jr.2, featsAt lg sq cfg t jr.1)

/-! ### `add_targets` -/

/-- `which` argument of `add_targets`. -/
inductive TargetHorizon where
  | weekly : TargetHorizon
  | monthly : TargetHorizon
  | both : TargetHorizon
deriving DecidableEq, Repr

/-- Does `which` request the weekly target columns? -/
def wantsWeekly : TargetHorizon → Bool
  | .weekly => true
  | .both => true
  | _ => false

/-- Does `which` request the monthly target columns? -/
def wantsMonthly : TargetHorizon → Bool
  | .monthly => true
  | .both => true
  | _ => false

/-- Column `future_ret = groupby(ticker).adj_close.shift(-h) / adj_close - 1`. -/
def futRetCol {α : Type _} (tkOf : α → String) (adj : α → V) (h : Nat) (t : List α) : List V :=
  List.zipWith (fun sh r => V.sub (V.div sh (adj r)) (V.fin 1))
    (gbtOn tkOf (shiftNeg h) t (t.map adj)) t

/-- `(future_ret > 0).astype("Int64")` for one value: NaN compares as
False and is therefore mapped to `0`. -/
def tgtOf (v : V) : Int := if V.lt (V.fin 0) v then 1 else 0

/-- The target columns of one row; `none` means the column was not
created (horizon not requested). -/
structure Targets where
  future_ret_w : Option V
  target_w : Option Int
  future_ret_m : Option V
  target_m : Option Int
deriving DecidableEq, Repr

/-- `add_targets(df, cfg, which)`: every input row, in order, augmented
with the requested forward-return and binary-target columns. -/
def add_targets {α : Type _} (tkOf : α → String) (adj : α → V) (cfg : FeatureConfig)
    (which : TargetHorizon) (t : List α) : List (α × Targets) :=
  (enumF 0 t).map fun jr =>
    ⟨jr.2,
     if wantsWeekly which then
       some ((futRetCol tkOf adj cfg.horizon_weekly t).getD jr.1 V.nan) else none,
     if wantsWeekly which then
       some (tgtOf ((futRetCol tkOf adj cfg.horizon_weekly t).getD jr.1 V.nan)) else none,
     if wantsMonthly which then
       some ((futRetCol tkOf adj cfg.horizon_monthly t).getD jr.1 V.nan) else none,
     if wantsMonthly which then
       some (tgtOf ((futRetCol tkOf adj cfg.horizon_monthly t).getD jr.1 V.nan)) else none⟩

/-! ### `load_long_dataset` (the Normalizer) -/

/-- A raw CSV cell: missing (`NA`), numeric, or text that may or may not
parse as a number (`text none` is non-numeric text like `"abc"`). -/
inductive RawVal where
  | na : RawVal
  | num : ℚ → RawVal
  | text : Option ℚ → RawVal
deriving DecidableEq, Repr

/-- `pd.notna` on a raw cell: text is present even when non-numeric. -/
def RawVal.notna : RawVal → Bool
  | .na => false
  | _ => true

/-- `pd.to_numeric(errors="coerce")` on a raw cell. -/
def RawVal.toNum : RawVal → V
  | .na => V.nan
  | .num q => V.fin q
  | .text none => V.nan
  | .text (some q) => V.fin q

/-- A raw input row.  `date` abstracts the result of
`pd.to_datetime(errors="coerce")` (`none` = coercion failed / missing);
`ticker` is `none` when the cell is `NA`. -/
structure RawRow where
  date : Option Int
  ticker : Option String
  open_ : RawVal
  high : RawVal
  low : RawVal
  close : RawVal
  volume : RawVal
  adjustedClose : RawVal
deriving DecidableEq, Repr

/-- The adjusted-close computation of the Normalizer:
`adj_close = adjustedClose.where(adjustedClose.notna(), close)` followed by
`adj_close[adj_close <= 0] = nan`. -/
def adjCloseOf (ac cl : V) : V :=
  let a := if ac.isNan then cl else ac
  if V.le a (V.fin 0) then V.nan else a

/-- `.str.strip().str.upper()` modelled on the character list (space
trimming and upper-casing; stated this way so the kernel can evaluate
it). -/
def normTicker (s : String) : String :=
  ⟨((s.data.dropWhile (fun c => c = ' ')).reverse.dropWhile (fun c => c = ' ')).reverse.map
    Char.toUpper⟩

/-- Row-wise normalization applied to a kept raw row: numeric coercion of
the price/volume columns, adjusted-close fallback, ticker
trimming/upper-casing. -/
def normalizeRow (rr : RawRow) : Row :=
  ⟨rr.date.getD 0,
   normTicker (rr.ticker.getD ""),
   rr.open_.toNum,
   rr.high.toNum,
   rr.low.toNum,
   rr.close.toNum,
   rr.volume.toNum,
   rr.adjustedClose.toNum,
   adjCloseOf rr.adjustedClose.toNum rr.close.toNum⟩

/-- Does the Normalizer keep this raw row?  (`dropna(subset=["date",
"ticker", "close"])`, applied before numeric coercion.) -/
def keepRaw (rr : RawRow) : Bool :=
  rr.date.isSome && rr.ticker.isSome && rr.close.notna

/-- Sort key of the Normalizer: `(ticker, date)` ascending. -/
def rowLE (a b : Row) : Prop :=
  a.ticker < b.ticker ∨ (a.ticker = b.ticker ∧ a.date ≤ b.date)

instance : DecidableRel rowLE := fun a b => by
  unfold rowLE; infer_instance

/-- `load_long_dataset`: date/key dropna, numeric coercion, adjusted-close
fallback, ticker normalization, sort by `(ticker, date)`.  (The input
schema check and CSV parsing are outside the model's input type.) -/
def load_long_dataset (raw : List RawRow) : List Row :=
  ((raw.filter keepRaw).map normalizeRow).insertionSort rowLE

/-! ### `filter_min_history` and `finalize_dataset` -/

/-- `filter_min_history`: keep rows of tickers with at least `minH` rows. -/
def filter_min_history (minH : Nat) (t : List Row) : List Row :=
  t.filter fun r => minH ≤ (t.filter (fun x => x.ticker == r.ticker)).length

/-- The `must_have` column list of `finalize_dataset` (note the hard-coded
`21`-window names, independent of the configured window lists). -/
def mustHave (cfg : FeatureConfig) : List String :=
  ["ret_1d", "rsi_" ++ Nat.repr cfg.rsi_window, "vol_21", "price_to_ma_21", "mom_21d"]

/-- A row as seen by the Finalizer: sort-key fields plus the numeric cells
aligned with the table's column-name list. -/
structure FinRow where
  date : Int
  ticker : String
  vals : List V
deriving DecidableEq, Repr, Inhabited

/-- Cell of a finalizer row under the table's column list (NaN when the
column is absent). -/
def cellOf (cols : List String) (name : String) (r : FinRow) : V :=
  match cols.indexOf? name with
  | some i => r.vals.getD i V.nan
  | none => V.nan

/-- Are all `must_have` cells of this row defined? -/
def reqDef (cfg : FeatureConfig) (cols : List String) (r : FinRow) : Bool :=
  (mustHave cfg).all fun c => !(cellOf cols c r).isNan

/-- Decidable equality of `Except` results (used to evaluate the
Finalizer on concrete inputs). -/
instance {e a : Type _} [DecidableEq e] [DecidableEq a] : DecidableEq (Except e a) :=
  fun x y =>
    match x, y with
    | .error u, .error v =>
        if h : u = v then isTrue (by rw [h]) else isFalse (by intro hh; cases hh; exact h rfl)
    | .error _, .ok _ => isFalse (by intro hh; cases hh)
    | .ok _, .error _ => isFalse (by intro hh; cases hh)
    | .ok u, .ok v =>
        if h : u = v then isTrue (by rw [h]) else isFalse (by intro hh; cases hh; exact h rfl)

/-- Finalizer output sort key: `(date, ticker)` ascending. -/
def finLE (a b : FinRow) : Prop :=
  a.date < b.date ∨ (a.date = b.date ∧ a.ticker ≤ b.ticker)

instance : DecidableRel finLE := fun a b => by
  unfold finLE; infer_instance

instance : IsTotal FinRow finLE :=
  ⟨fun a b => by
    unfold finLE
    rcases lt_trichotomy a.date b.date with h | h | h
    · exact Or.inl (Or.inl h)
    · rcases le_total a.ticker b.ticker with ht | ht
      · exact Or.inl (Or.inr ⟨h, ht⟩)
      · exact Or.inr (Or.inr ⟨h.symm, ht⟩)
    · exact Or.inr (Or.inl h)⟩

instance : IsTrans FinRow finLE :=
  ⟨fun a b c hab hbc => by
    unfold finLE at hab hbc ⊢
    rcases hab with h1 | ⟨e1, t1⟩ <;> rcases hbc with h2 | ⟨e2, t2⟩
    · exact Or.inl (lt_trans h1 h2)
    · exact Or.inl (by rw [← e2]; exact h1)
    · exact Or.inl (by rw [e1]; exact h2)
    · exact Or.inr ⟨e1.trans e2, le_trans t1 t2⟩⟩

/-- `finalize_dataset`: raise (as `Except.error`, naming the first missing
column) when a `must_have` column is absent; otherwise drop every row with
an undefined `must_have` cell and sort by `(date, ticker)`. -/
def finalize_dataset (cfg : FeatureConfig) (cols : List String) (rows : List FinRow) :
    Except String (List FinRow) :=
  match (mustHave cfg).find? (fun c => !(cols.contains c)) with
  | some c => .error c
  | none => .ok ((rows.filter (reqDef cfg cols)).insertionSort finLE)

/-- The largest configured lookback window of the feature stage
(including the fixed 63-day volume window and the RSI window). -/
def maxWindow (cfg : FeatureConfig) : Nat :=
  ((cfg.mom_windows ++ cfg.ma_windows ++ cfg.vol_windows) ++ [63, cfg.rsi_window]).foldr max 0

/-! ### Concrete sample data (used to evaluate the definitions) -/

/-- A simple valid observation row. -/
def sampleRow (tk : String) (d : Int) (q : ℚ) : Row :=
  ⟨d, tk, V.fin q, V.fin q, V.fin q, V.fin q, V.fin 10, V.fin q, V.fin q⟩

/-- A raw row whose `low` and `open` are zero (otherwise valid). -/
def rawZeroLow : RawRow :=
  ⟨some 0, some "A", RawVal.num 0, RawVal.num 1, RawVal.num 0, RawVal.num 1,
   RawVal.num 5, RawVal.num 1⟩

/-- A raw row whose source adjusted close is present but negative while
`close` is positive. -/
def rawNegAdj : RawRow :=
  ⟨some 0, some "A", RawVal.num 1, RawVal.num 2, RawVal.num 1, RawVal.num 10,
   RawVal.num 5, RawVal.num (-5)⟩

/-- A raw row whose `close` cell is present but non-parseable text. -/
def rawTextClose : RawRow :=
  ⟨some 0, some "A", RawVal.num 1, RawVal.num 2, RawVal.num 1, RawVal.text none,
   RawVal.num 5, RawVal.na⟩

/-- A strictly rising 16-observation price series (`1, 2, ..., 16`). -/
def rising16 : List V := (List.range 16).map fun k => V.fin ((k + 1 : Nat) : ℚ)

/-! ### Specification predicates -/

/-- Number of non-NaN entries among the first `i + 1` entries of a series
(how many observations have contributed by position `i`). -/
def obsCount (s : List V) (i : Nat) : Nat :=
  (s.take (i + 1)).countP (fun x => !x.isNan)

/-- NaN, +infinity, or a nonnegative finite value: the shapes a Wilder
smoothed average of a clipped (gain/loss) series can take. -/
def nnV (v : V) : Prop := v = V.nan ∨ v = V.pinf ∨ ∃ q : ℚ, 0 ≤ q ∧ v = V.fin q

/-- NaN or a positive finite value (the invariant of the normalized
`adj_close` column). -/
def posV (v : V) : Prop := v = V.nan ∨ ∃ q : ℚ, 0 < q ∧ v = V.fin q

/-- NaN or a finite value (no infinity). -/
def finV (v : V) : Prop := v = V.nan ∨ ∃ q : ℚ, v = V.fin q

/-- A series function is causal: it preserves lengths and computing on a
prefix agrees with the prefix of the computation (values never read
positions to their right). -/
structure Causal (f : List V → List V) : Prop where
  len : ∀ s, (f s).length = s.length
  take_eq : ∀ s n, f (s.take n) = (f s).take n

/-- A feature-column constructor is per-ticker causal: it preserves
lengths, appending a row leaves all earlier values unchanged, and the
values at the rows of a given ticker are determined by that ticker's
subtable. -/
structure GoodCol (C : List Row → List V) : Prop where
  len : ∀ t, (C t).length = t.length
  app : ∀ t r, C (t ++ [r]) = C t ++ [(C (t ++ [r])).getD t.length V.nan]
  mdet : ∀ tk t t',
    t.filter (fun x => x.ticker == tk) = t'.filter (fun x => x.ticker == tk) →
    tkMask Row.ticker tk t (C t) = tkMask Row.ticker tk t' (C t')

/-! ## Basic list lemmas -/

theorem getD_take {α : Type _} {s : List α} {n i : Nat} (h : i < n) (d : α) :
    (s.take n).getD i d = s.getD i d := by
  rw [List.getD_eq_getElem?_getD, List.getD_eq_getElem?_getD, List.getElem?_take, if_pos h]

theorem getD_append_left {α : Type _} {l l' : List α} {i : Nat} (h : i < l.length) (d : α) :
    (l ++ l').getD i d = l.getD i d := by
  rw [List.getD_eq_getElem?_getD, List.getD_eq_getElem?_getD, List.getElem?_append, if_pos h]

theorem getD_append_len {α : Type _} (l : List α) (x : α) (d : α) :
    (l ++ [x]).getD l.length d = x := by
  rw [List.getD_eq_getElem?_getD, List.getElem?_append, if_neg (lt_irrefl _)]
  simp

theorem eq_take_append_getD {α : Type _} (l : List α) (n : Nat) (d : α)
    (h : l.length = n + 1) : l = l.take n ++ [l.getD n d] := by
  have hn : n < l.length := by omega
  conv_lhs => rw [← List.take_append_drop n l]
  congr 1
  rw [List.getD_eq_getElem _ _ hn, List.drop_eq_getElem_cons hn,
    List.drop_eq_nil_of_le (by omega)]

theorem getD_cases {α : Type _} (l : List α) (i : Nat) (d : α) :
    l.getD i d = d ∨ l.getD i d ∈ l := by
  by_cases h : i < l.length
  · right; rw [List.getD_eq_getElem _ _ h]; exact List.getElem_mem h
  · left
    rw [List.getD_eq_getElem?_getD, List.getElem?_eq_none (by omega)]
    rfl

/-! ## `enumF` lemmas -/

theorem enumF_length {α : Type _} (n : Nat) (l : List α) : (enumF n l).length = l.length := by
  induction l generalizing n with
  | nil => rfl
  | cons x xs ih => simp [enumF, ih]

theorem enumF_append {α : Type _} (n : Nat) (l l' : List α) :
    enumF n (l ++ l') = enumF n l ++ enumF (n + l.length) l' := by
  induction l generalizing n with
  | nil => simp [enumF]
  | cons x xs ih => simp [enumF, ih, Nat.add_assoc, Nat.add_comm 1 xs.length]

theorem mem_enumF {α : Type _} {n : Nat} {l : List α} {j : Nat} {x : α}
    (h : (j, x) ∈ enumF n l) :
    ∃ k, ∃ hk : k < l.length, j = n + k ∧ l.get ⟨k, hk⟩ = x := by
  induction l generalizing n with
  | nil => cases h
  | cons y ys ih =>
    rw [enumF] at h
    rcases List.mem_cons.1 h with h | h
    · cases h
      exact ⟨0, Nat.succ_pos _, by omega, rfl⟩
    · rcases ih h with ⟨k, hk, hj, hx⟩
      exact ⟨k + 1, Nat.succ_lt_succ hk, by omega, hx⟩

theorem enumF_map_snd {α : Type _} (n : Nat) (l : List α) :
    (enumF n l).map Prod.snd = l := by
  induction l generalizing n with
  | nil => rfl
  | cons x xs ih => simp [enumF, ih]

/-! ## `maskBy` lemmas -/

theorem maskBy_nil {α : Type _} (p : α → Bool) (vs : List V) : maskBy p [] vs = [] := rfl

theorem maskBy_cons {α : Type _} (p : α → Bool) (x : α) (xs : List α) (v : V) (vs : List V) :
    maskBy p (x :: xs) (v :: vs) = (if p x then [v] else []) ++ maskBy p xs vs := by
  by_cases hp : p x <;> simp [maskBy, List.zip_cons_cons, List.filterMap_cons, hp]

theorem maskBy_append1 {α : Type _} (p : α → Bool) {t : List α} {vs : List V} (r : α) (v : V)
    (hlen : vs.length = t.length) :
    maskBy p (t ++ [r]) (vs ++ [v]) = maskBy p t vs ++ (if p r then [v] else []) := by
  unfold maskBy
  rw [List.zip_append hlen.symm, List.filterMap_append]
  congr 1
  by_cases h : p r <;> simp [h]

theorem maskBy_length {α : Type _} (p : α → Bool) (t : List α) (vs : List V)
    (hlen : vs.length = t.length) :
    (maskBy p t vs).length = (t.filter p).length := by
  induction t generalizing vs with
  | nil => simp [maskBy]
  | cons x xs ih =>
    cases vs with
    | nil => simp at hlen
    | cons v vs' =>
      simp only [List.length_cons, Nat.succ_inj] at hlen
      by_cases h : p x <;> simp [maskBy_cons, h, List.filter_cons, ih vs' hlen]

theorem maskBy_map {α : Type _} (p : α → Bool) (t : List α) (src : α → V) :
    maskBy p t (t.map src) = (t.filter p).map src := by
  induction t with
  | nil => rfl
  | cons x xs ih =>
    by_cases h : p x <;> simp [maskBy_cons, h, List.filter_cons, ih]

theorem mem_maskBy {α : Type _} {p : α → Bool} {t : List α} {vs : List V} {x : V}
    (h : x ∈ maskBy p t vs) : x ∈ vs := by
  unfold maskBy at h
  rcases List.mem_filterMap.1 h with ⟨⟨a, b⟩, hab, hx⟩
  by_cases hp : p a
  · simp [hp] at hx
    exact hx ▸ (List.of_mem_zip hab).2
  · simp [hp] at hx

theorem maskBy_zipWith {α : Type _} (p : α → Bool) (h : V → V → V) (t : List α)
    (a b : List V) (ha : a.length = t.length) (hb : b.length = t.length) :
    maskBy p t (List.zipWith h a b) = List.zipWith h (maskBy p t a) (maskBy p t b) := by
  induction t generalizing a b with
  | nil => simp [maskBy]
  | cons x xs ih =>
    cases a with
    | nil => simp at ha
    | cons av a' =>
      cases b with
      | nil => simp at hb
      | cons bv b' =>
        simp only [List.length_cons, Nat.succ_inj] at ha hb
        by_cases hp : p x <;>
          simp [maskBy_cons, List.zipWith_cons_cons, hp, ih a' b' ha hb]

theorem maskBy_mapCol {α : Type _} (p : α → Bool) (g : V → V) (t : List α) (vs : List V)
    (hlen : vs.length = t.length) :
    maskBy p t (vs.map g) = (maskBy p t vs).map g := by
  induction t generalizing vs with
  | nil => simp [maskBy]
  | cons x xs ih =>
    cases vs with
    | nil => simp at hlen
    | cons v vs' =>
      simp only [List.length_cons, Nat.succ_inj] at hlen
      by_cases hp : p x <;> simp [maskBy_cons, hp, ih vs' hlen]

theorem maskBy_getD_rank {α : Type _} (p : α → Bool) (t : List α) (vs : List V) (j : Nat)
    (d : V) (hlen : vs.length = t.length) (hj : j < t.length)
    (hp : p (t.get ⟨j, hj⟩) = true) :
    (maskBy p t vs).getD ((t.take j).filter p).length d = vs.getD j d := by
  induction t generalizing vs j with
  | nil => cases hj
  | cons x xs ih =>
    cases vs with
    | nil => simp at hlen
    | cons v vs' =>
      simp only [List.length_cons, Nat.succ_inj] at hlen
      cases j with
      | zero =>
        simp only [List.get] at hp
        simp [maskBy_cons, hp]
      | succ j' =>
        simp only [List.get] at hp
        have hj' : j' < xs.length := by simpa using hj
        by_cases hx : p x <;>
          simpa [maskBy_cons, hx, List.filter_cons] using ih vs' j' hlen hj' hp

/-! ## Causality of the series primitives -/

theorem atV_take {s : List V} {n i : Nat} (h : i < n) : atV (s.take n) i = atV s i :=
  getD_take h _

theorem winAt_take {w n i : Nat} (s : List V) (h : i < n) (hw : w ≤ i + 1) :
    winAt w (s.take n) i = winAt w s i := by
  unfold winAt
  rw [List.drop_take, List.take_take]
  congr 1
  omega

theorem causal_idxMap {g : List V → Nat → V}
    (hloc : ∀ s n i, i < n → i < s.length → g (s.take n) i = g s i) :
    Causal (idxMap g) := by
  constructor
  · intro s; simp [idxMap]
  · intro s n
    unfold idxMap
    rw [← List.map_take, List.take_range, List.length_take]
    apply List.map_congr_left
    intro i hi
    rw [List.mem_range] at hi
    exact hloc s n i (lt_of_lt_of_le hi inf_le_left) (lt_of_lt_of_le hi inf_le_right)

theorem causal_pctChange (k : Nat) : Causal (pctChange k) := by
  apply causal_idxMap
  intro s n i hn _
  by_cases hk : k ≤ i
  · simp only [hk, if_true, atV_take hn, atV_take (lt_of_le_of_lt (Nat.sub_le i k) hn)]
  · simp [hk]

theorem causal_shiftPos (k : Nat) : Causal (shiftPos k) := by
  apply causal_idxMap
  intro s n i hn _
  by_cases hk : k ≤ i
  · simp only [hk, if_true, atV_take (lt_of_le_of_lt (Nat.sub_le i k) hn)]
  · simp [hk]

theorem causal_diffV : Causal diffV := by
  apply causal_idxMap
  intro s n i hn _
  by_cases hk : 1 ≤ i
  · simp only [hk, if_true, atV_take hn, atV_take (lt_of_le_of_lt (Nat.sub_le i 1) hn)]
  · simp [hk]

theorem causal_rollMean (w : Nat) : Causal (rollMean w) := by
  apply causal_idxMap
  intro s n i hn _
  by_cases hw : w ≤ i + 1
  · simp only [winAt_take s hn hw, hw, true_and]
  · simp [hw]

theorem causal_rollStd (sq : ℚ → ℚ) (w : Nat) : Causal (rollStd sq w) := by
  apply causal_idxMap
  intro s n i hn _
  by_cases hw : w ≤ i + 1
  · simp only [winAt_take s hn hw, hw, true_and]
  · simp [hw]

theorem ewmGo_length (a : ℚ) (minp : Nat) (st : EwSt) (s : List V) :
    (ewmGo a minp st s).length = s.length := by
  induction s generalizing st with
  | nil => rfl
  | cons x xs ih => simp [ewmGo, ih]

theorem ewmGo_take (a : ℚ) (minp : Nat) (st : EwSt) (s : List V) (n : Nat) :
    ewmGo a minp st (s.take n) = (ewmGo a minp st s).take n := by
  induction s generalizing st n with
  | nil => simp [ewmGo]
  | cons x xs ih =>
    cases n with
    | zero => simp [ewmGo]
    | succ n' => simp [ewmGo, ih]

theorem causal_ewmMean (a : ℚ) (minp : Nat) : Causal (ewmMean a minp) :=
  ⟨fun s => ewmGo_length a minp _ s, fun s n => ewmGo_take a minp _ s n⟩

theorem Causal.comp {f g : List V → List V} (hf : Causal f) (hg : Causal g) :
    Causal (fun s => f (g s)) := by
  constructor
  · intro s; rw [hf.len, hg.len]
  · intro s n; rw [hg.take_eq, hf.take_eq]

theorem causal_map (g : V → V) : Causal (fun s => s.map g) := by
  constructor
  · intro s; simp
  · intro s n; rw [List.map_take]

theorem causal_mapPost {f : List V → List V} (g : V → V) (hf : Causal f) :
    Causal (fun s => (f s).map g) :=
  (causal_map g).comp hf

theorem causal_zipWith {f₁ f₂ : List V → List V} (h : V → V → V)
    (h₁ : Causal f₁) (h₂ : Causal f₂) :
    Causal (fun s => List.zipWith h (f₁ s) (f₂ s)) := by
  constructor
  · intro s; rw [List.length_zipWith, h₁.len, h₂.len, Nat.min_self]
  · intro s n
    rw [h₁.take_eq, h₂.take_eq, List.take_zipWith]

theorem causal_gain : Causal gainSeries := by
  have := causal_mapPost V.clip0 causal_diffV
  constructor
  · intro s; exact this.len s
  · intro s n; exact this.take_eq s n

theorem causal_loss : Causal lossSeries := by
  have := causal_mapPost (fun d => V.clip0 (V.neg d)) causal_diffV
  constructor
  · intro s; exact this.len s
  · intro s n; exact this.take_eq s n

theorem causal_avgGain (w : Nat) : Causal (avgGainF w) := by
  have := (causal_ewmMean (1 / (w : ℚ)) w).comp causal_gain
  constructor
  · intro s; exact this.len s
  · intro s n; exact this.take_eq s n

theorem causal_avgLoss (w : Nat) : Causal (avgLossF w) := by
  have := (causal_ewmMean (1 / (w : ℚ)) w).comp causal_loss
  constructor
  · intro s; exact this.len s
  · intro s n; exact this.take_eq s n

theorem causal_rsiF (w : Nat) : Causal (rsiF w) := by
  have := causal_zipWith rsiOf (causal_avgGain w) (causal_avgLoss w)
  constructor
  · intro s; exact this.len s
  · intro s n; exact this.take_eq s n

/-- A causal series function splits over appending one value: the old
outputs are unchanged. -/
theorem Causal.app {f : List V → List V} (hf : Causal f) (m : List V) (v : V) :
    f (m ++ [v]) = f m ++ [(f (m ++ [v])).getD m.length V.nan] := by
  have hlen : (f (m ++ [v])).length = m.length + 1 := by
    rw [hf.len]; simp
  conv_lhs => rw [eq_take_append_getD (f (m ++ [v])) m.length V.nan hlen]
  congr 1
  rw [← hf.take_eq, List.take_left]

/-! ## `rankAt` and `gbtOn` lemmas -/

theorem rankAt_append {α : Type _} (tkOf : α → String) (t l' : List α) (j : Nat) (tk : String)
    (h : j ≤ t.length) : rankAt tkOf (t ++ l') j tk = rankAt tkOf t j tk := by
  unfold rankAt
  rw [List.take_append_of_le_length h]

theorem rankAt_len {α : Type _} (tkOf : α → String) (t : List α) (tk : String) :
    rankAt tkOf t t.length tk = (t.filter (fun x => tkOf x == tk)).length := by
  unfold rankAt
  rw [List.take_length]

theorem rankAt_lt {α : Type _} (tkOf : α → String) (t : List α) (j : Nat) (hj : j < t.length) :
    rankAt tkOf t j (tkOf (t.get ⟨j, hj⟩)) <
      (t.filter (fun x => tkOf x == tkOf (t.get ⟨j, hj⟩))).length := by
  set tk := tkOf (t.get ⟨j, hj⟩) with htk
  have hsub : ((t.take (j + 1)).filter (fun x => tkOf x == tk)).length ≤
      (t.filter (fun x => tkOf x == tk)).length :=
    ((List.take_sublist (j + 1) t).filter _).length_le
  have hstep : (t.take (j + 1)).filter (fun x => tkOf x == tk) =
      (t.take j).filter (fun x => tkOf x == tk) ++ [t.get ⟨j, hj⟩] := by
    rw [List.take_succ, List.filter_append]
    congr 1
    rw [List.getElem?_eq_getElem hj]
    simp [List.filter_cons, List.get_eq_getElem, htk]
  rw [hstep] at hsub
  simp only [List.length_append, List.length_cons, List.length_nil] at hsub
  unfold rankAt
  omega

theorem gbtOn_length {α : Type _} (tkOf : α → String) (f : List V → List V) (t : List α)
    (vs : List V) : (gbtOn tkOf f t vs).length = t.length := by
  simp [gbtOn, enumF_length]

theorem enumF_getElem? {α : Type _} (n : Nat) (l : List α) (j : Nat) (hj : j < l.length) :
    (enumF n l)[j]? = some (n + j, l.get ⟨j, hj⟩) := by
  induction l generalizing n j with
  | nil => cases hj
  | cons x xs ih =>
    cases j with
    | zero => simp [enumF]
    | succ j' =>
      have hj' : j' < xs.length := by simpa using hj
      have := ih (n + 1) j' hj'
      simp only [enumF, List.getElem?_cons_succ, this, Option.some.injEq, Prod.mk.injEq]
      exact ⟨by omega, rfl⟩

theorem gbtOn_getD {α : Type _} (tkOf : α → String) (f : List V → List V) (t : List α)
    (vs : List V) (j : Nat) (hj : j < t.length) (d : V) :
    (gbtOn tkOf f t vs).getD j d =
      (f (tkMask tkOf (tkOf (t.get ⟨j, hj⟩)) t vs)).getD
        (rankAt tkOf t j (tkOf (t.get ⟨j, hj⟩))) V.nan := by
  unfold gbtOn
  rw [List.getD_eq_getElem?_getD, List.getElem?_map, enumF_getElem? 0 t j hj]
  simp

theorem gbtOn_append1 {α : Type _} (tkOf : α → String) {f : List V → List V} (hf : Causal f)
    (t : List α) (vs : List V) (r : α) (v : V) (hlen : vs.length = t.length) :
    gbtOn tkOf f (t ++ [r]) (vs ++ [v]) =
      gbtOn tkOf f t vs ++
        [(f (tkMask tkOf (tkOf r) t vs ++ [v])).getD
          (tkMask tkOf (tkOf r) t vs).length V.nan] := by
  unfold gbtOn
  rw [enumF_append, List.map_append]
  congr 1
  · apply List.map_congr_left
    rintro ⟨j, x⟩ hmem
    rcases mem_enumF hmem with ⟨k, hk, hj, hx⟩
    have hjk : j = k := by omega
    subst hjk
    subst hx
    simp only
    rw [show tkMask tkOf (tkOf (t.get ⟨j, hk⟩)) (t ++ [r]) (vs ++ [v]) =
        maskBy (fun x => tkOf x == tkOf (t.get ⟨j, hk⟩)) (t ++ [r]) (vs ++ [v]) from rfl,
      maskBy_append1 _ r v hlen,
      rankAt_append tkOf t [r] j _ (le_of_lt hk)]
    by_cases hcase : tkOf r == tkOf (t.get ⟨j, hk⟩)
    · rw [if_pos hcase]
      have hrlt : rankAt tkOf t j (tkOf (t.get ⟨j, hk⟩)) <
          (tkMask tkOf (tkOf (t.get ⟨j, hk⟩)) t vs).length := by
        rw [show tkMask tkOf (tkOf (t.get ⟨j, hk⟩)) t vs =
            maskBy (fun x => tkOf x == tkOf (t.get ⟨j, hk⟩)) t vs from rfl,
          maskBy_length _ _ _ hlen]
        exact rankAt_lt tkOf t j hk
      rw [hf.app]
      rw [getD_append_left (by rwa [hf.len])]
      rfl
    · simp only [hcase, if_neg, Bool.false_eq_true, not_false_iff, List.append_nil]
      rfl
  · simp only [enumF, List.map_cons, List.map_nil, Nat.zero_add]
    congr 2
    · rw [show tkMask tkOf (tkOf r) (t ++ [r]) (vs ++ [v]) =
          maskBy (fun x => tkOf x == tkOf r) (t ++ [r]) (vs ++ [v]) from rfl,
        maskBy_append1 _ r v hlen]
      simp [tkMask]
    · rw [rankAt_append tkOf t [r] t.length _ (le_refl _), rankAt_len,
        show tkMask tkOf (tkOf r) t vs = maskBy (fun x => tkOf x == tkOf r) t vs from rfl,
        maskBy_length _ _ _ hlen]

/-! ## `tkMask` wrappers -/

theorem tkMask_append1 {α : Type _} (tkOf : α → String) (tk : String) {t : List α}
    {vs : List V} (r : α) (v : V) (hlen : vs.length = t.length) :
    tkMask tkOf tk (t ++ [r]) (vs ++ [v]) =
      tkMask tkOf tk t vs ++ (if tkOf r == tk then [v] else []) :=
  maskBy_append1 _ r v hlen

theorem tkMask_length {α : Type _} (tkOf : α → String) (tk : String) (t : List α)
    (vs : List V) (hlen : vs.length = t.length) :
    (tkMask tkOf tk t vs).length = (t.filter (fun x => tkOf x == tk)).length :=
  maskBy_length _ _ _ hlen

theorem tkMask_mapSrc {α : Type _} (tkOf : α → String) (tk : String) (t : List α)
    (src : α → V) :
    tkMask tkOf tk t (t.map src) = ((t.filter (fun x => tkOf x == tk)).map src) :=
  maskBy_map _ _ _

theorem tkMask_gbtOn {α : Type _} (tkOf : α → String) {f : List V → List V} (hf : Causal f)
    (tk : String) (t : List α) (vs : List V) (hlen : vs.length = t.length) :
    tkMask tkOf tk t (gbtOn tkOf f t vs) = f (tkMask tkOf tk t vs) := by
  induction t using List.reverseRecOn generalizing vs with
  | nil =>
    have hvs : vs = [] := List.length_eq_zero.1 hlen
    subst hvs
    have hfe : f [] = [] := List.length_eq_zero.1 (by rw [hf.len]; rfl)
    simp [tkMask, maskBy, gbtOn, enumF, hfe]
  | append_singleton t r ih =>
    have hlen' : vs.length = t.length + 1 := by simpa using hlen
    obtain ⟨vs₀, v, rfl, h0⟩ : ∃ vs₀ v, vs = vs₀ ++ [v] ∧ vs₀.length = t.length := by
      refine ⟨vs.take t.length, vs.getD t.length V.nan,
        eq_take_append_getD vs t.length V.nan hlen', ?_⟩
      rw [List.length_take]; omega
    rw [gbtOn_append1 tkOf hf t vs₀ r v h0,
      tkMask_append1 tkOf tk r _ (by rw [gbtOn_length]),
      tkMask_append1 tkOf tk r v h0]
    by_cases hc : tkOf r == tk
    · rw [if_pos hc, if_pos hc, ih vs₀ h0]
      have htk : tkOf r = tk := by simpa using hc
      rw [htk]
      exact (hf.app (tkMask tkOf tk t vs₀) v).symm
    · rw [if_neg (by simpa using hc), if_neg (by simpa using hc)]
      rw [List.append_nil, List.append_nil]
      exact ih vs₀ h0

/-! ## `GoodCol` instances -/

theorem good_ptwise (g : Row → V) : GoodCol (fun t => t.map g) := by
  constructor
  · intro t; simp
  · intro t r
    rw [List.map_append, List.map_cons, List.map_nil]
    congr 1
    rw [show t.length = (t.map g).length from (List.length_map t g).symm, getD_append_len]
  · intro tk t t' hft
    rw [tkMask_mapSrc, tkMask_mapSrc, hft]

theorem GoodCol.gbt {C₀ : List Row → List V} (h₀ : GoodCol C₀) {f : List V → List V}
    (hf : Causal f) : GoodCol (fun t => gbtOn Row.ticker f t (C₀ t)) := by
  constructor
  · intro t; exact gbtOn_length _ _ _ _
  · intro t r
    have happ := h₀.app t r
    have hsplit := gbtOn_append1 Row.ticker hf t (C₀ t) r
      ((C₀ (t ++ [r])).getD t.length V.nan) (h₀.len t)
    rw [happ, hsplit]
    congr 1
    rw [show t.length = (gbtOn Row.ticker f t (C₀ t)).length from (gbtOn_length _ _ _ _).symm,
      getD_append_len]
  · intro tk t t' hft
    rw [tkMask_gbtOn Row.ticker hf tk t (C₀ t) (h₀.len t),
      tkMask_gbtOn Row.ticker hf tk t' (C₀ t') (h₀.len t'),
      h₀.mdet tk t t' hft]

theorem GoodCol.zip {C₁ C₂ : List Row → List V} (h : V → V → V) (g₁ : GoodCol C₁)
    (g₂ : GoodCol C₂) : GoodCol (fun t => List.zipWith h (C₁ t) (C₂ t)) := by
  constructor
  · intro t; rw [List.length_zipWith, g₁.len, g₂.len, Nat.min_self]
  · intro t r
    have e1 := g₁.app t r
    have e2 := g₂.app t r
    rw [e1, e2, List.zipWith_append _ _ _ _ _ (by rw [g₁.len, g₂.len]),
      List.zipWith_cons_cons, List.zipWith_nil_right]
    congr 1
    rw [show t.length = (List.zipWith h (C₁ t) (C₂ t)).length from
      (by rw [List.length_zipWith, g₁.len, g₂.len, Nat.min_self]), getD_append_len]
  · intro tk t t' hft
    rw [show tkMask Row.ticker tk t (List.zipWith h (C₁ t) (C₂ t)) =
        maskBy (fun x => x.ticker == tk) t (List.zipWith h (C₁ t) (C₂ t)) from rfl,
      maskBy_zipWith _ h t _ _ (g₁.len t) (g₂.len t),
      show tkMask Row.ticker tk t' (List.zipWith h (C₁ t') (C₂ t')) =
        maskBy (fun x => x.ticker == tk) t' (List.zipWith h (C₁ t') (C₂ t')) from rfl,
      maskBy_zipWith _ h t' _ _ (g₁.len t') (g₂.len t')]
    have m1 := g₁.mdet tk t t' hft
    have m2 := g₂.mdet tk t t' hft
    rw [show maskBy (fun x => x.ticker == tk) t (C₁ t) = tkMask Row.ticker tk t (C₁ t) from rfl,
      show maskBy (fun x => x.ticker == tk) t (C₂ t) = tkMask Row.ticker tk t (C₂ t) from rfl,
      show maskBy (fun x => x.ticker == tk) t' (C₁ t') =
        tkMask Row.ticker tk t' (C₁ t') from rfl,
      show maskBy (fun x => x.ticker == tk) t' (C₂ t') =
        tkMask Row.ticker tk t' (C₂ t') from rfl, m1, m2]

theorem GoodCol.mapPost {C₀ : List Row → List V} (g : V → V) (h₀ : GoodCol C₀) :
    GoodCol (fun t => (C₀ t).map g) := by
  constructor
  · intro t; rw [List.length_map, h₀.len]
  · intro t r
    rw [h₀.app t r, List.map_append, List.map_cons, List.map_nil]
    congr 1
    rw [show t.length = ((C₀ t).map g).length from (by rw [List.length_map, h₀.len]),
      getD_append_len]
  · intro tk t t' hft
    rw [show tkMask Row.ticker tk t ((C₀ t).map g) =
        maskBy (fun x => x.ticker == tk) t ((C₀ t).map g) from rfl,
      maskBy_mapCol _ g t _ (h₀.len t),
      show tkMask Row.ticker tk t' ((C₀ t').map g) =
        maskBy (fun x => x.ticker == tk) t' ((C₀ t').map g) from rfl,
      maskBy_mapCol _ g t' _ (h₀.len t')]
    exact congrArg (List.map g) (h₀.mdet tk t t' hft)

/-- The value a per-ticker causal column assigns to a newly appended row
is determined by the row and its ticker's subtable. -/
theorem GoodCol.lastDet {C : List Row → List V} (hC : GoodCol C) {t t' : List Row} (r : Row)
    (hflt : t.filter (fun x => x.ticker == r.ticker) =
      t'.filter (fun x => x.ticker == r.ticker)) :
    (C (t ++ [r])).getD t.length V.nan = (C (t' ++ [r])).getD t'.length V.nan := by
  have hmask : tkMask Row.ticker r.ticker (t ++ [r]) (C (t ++ [r])) =
      tkMask Row.ticker r.ticker (t' ++ [r]) (C (t' ++ [r])) := by
    apply hC.mdet
    rw [List.filter_append, List.filter_append, hflt]
  have ht : tkMask Row.ticker r.ticker (t ++ [r]) (C (t ++ [r])) =
      tkMask Row.ticker r.ticker t (C t) ++ [(C (t ++ [r])).getD t.length V.nan] := by
    conv_lhs => rw [hC.app t r]
    rw [tkMask_append1 Row.ticker r.ticker r _ (hC.len t)]
    simp
  have ht' : tkMask Row.ticker r.ticker (t' ++ [r]) (C (t' ++ [r])) =
      tkMask Row.ticker r.ticker t' (C t') ++ [(C (t' ++ [r])).getD t'.length V.nan] := by
    conv_lhs => rw [hC.app t' r]
    rw [tkMask_append1 Row.ticker r.ticker r _ (hC.len t')]
    simp
  rw [ht, ht'] at hmask
  have hlen2 : (tkMask Row.ticker r.ticker t (C t)).length =
      (tkMask Row.ticker r.ticker t' (C t')).length := by
    rw [tkMask_length _ _ _ _ (hC.len t), tkMask_length _ _ _ _ (hC.len t'), hflt]
  have := List.append_inj hmask hlen2
  simpa using this.2

/-! ## The individual feature columns are per-ticker causal -/

theorem good_colRet : GoodCol colRet :=
  (good_ptwise Row.adj_close).gbt (causal_pctChange 1)

theorem good_colShift1 : GoodCol colShift1 :=
  (good_ptwise Row.adj_close).gbt (causal_shiftPos 1)

theorem good_colLogret (lg : ℚ → ℚ) : GoodCol (colLogret lg) :=
  GoodCol.zip V.sub ((good_ptwise Row.adj_close).mapPost (vlog lg))
    (good_colShift1.mapPost (vlog lg))

theorem good_colMom (w : Nat) : GoodCol (colMom w) :=
  ((good_ptwise Row.adj_close).gbt (causal_pctChange w)).mapPost V.deinf

theorem good_colMa (w : Nat) : GoodCol (colMa w) :=
  (good_ptwise Row.adj_close).gbt (causal_rollMean w)

theorem good_colPma (w : Nat) : GoodCol (colPma w) :=
  GoodCol.zip (fun c m => V.sub (V.div c m) (V.fin 1)) (good_ptwise Row.adj_close)
    (good_colMa w)

theorem good_colVol (lg sq : ℚ → ℚ) (w : Nat) : GoodCol (colVol lg sq w) :=
  (good_colLogret lg).gbt (causal_rollStd sq w)

theorem good_colLogvol (lg : ℚ → ℚ) : GoodCol (colLogvol lg) :=
  good_ptwise (fun r => vlog lg (V.rep0nan r.volume))

theorem good_colVolMu (lg : ℚ → ℚ) : GoodCol (colVolMu lg) :=
  (good_colLogvol lg).gbt (causal_rollMean 63)

theorem good_colVolSd (lg sq : ℚ → ℚ) : GoodCol (colVolSd lg sq) :=
  (good_colLogvol lg).gbt (causal_rollStd sq 63)

theorem good_colLogvolZ (lg sq : ℚ → ℚ) : GoodCol (colLogvolZ lg sq) :=
  GoodCol.zip V.div (GoodCol.zip V.sub (good_colLogvol lg) (good_colVolMu lg))
    (good_colVolSd lg sq)

theorem good_colHl : GoodCol colHl :=
  good_ptwise (fun r => V.sub (V.div r.high r.low) (V.fin 1))

theorem good_colOc : GoodCol colOc :=
  good_ptwise (fun r => V.sub (V.div r.close r.open_) (V.fin 1))

theorem good_colRsi (n : Nat) : GoodCol (colRsi n) :=
  (good_ptwise Row.adj_close).gbt (causal_rsiF n)

/-! ## `build_features` row-level lemmas -/

theorem col_getD_append {C : List Row → List V} (hC : GoodCol C) (t : List Row) (r : Row)
    (j : Nat) (hj : j < t.length) (d : V) :
    (C (t ++ [r])).getD j d = (C t).getD j d := by
  rw [hC.app t r, getD_append_left (by rw [hC.len]; exact hj)]

theorem featsAt_append (lg sq : ℚ → ℚ) (cfg : FeatureConfig) (t : List Row) (r : Row)
    (j : Nat) (hj : j < t.length) :
    featsAt lg sq cfg (t ++ [r]) j = featsAt lg sq cfg t j := by
  unfold featsAt
  simp only [Feats.mk.injEq]
  refine ⟨?_, ?_, ?_, ?_, ?_, ?_, ?_, ?_, ?_, ?_, ?_⟩
  · exact col_getD_append good_colRet t r j hj _
  · exact col_getD_append (good_colLogret lg) t r j hj _
  · exact List.map_congr_left fun w _ => col_getD_append (good_colMom w) t r j hj _
  · exact List.map_congr_left fun w _ => col_getD_append (good_colMa w) t r j hj _
  · exact List.map_congr_left fun w _ => col_getD_append (good_colPma w) t r j hj _
  · exact List.map_congr_left fun w _ => col_getD_append (good_colVol lg sq w) t r j hj _
  · exact col_getD_append (good_colLogvol lg) t r j hj _
  · exact col_getD_append (good_colLogvolZ lg sq) t r j hj _
  · exact col_getD_append good_colHl t r j hj _
  · exact col_getD_append good_colOc t r j hj _
  · exact col_getD_append (good_colRsi cfg.rsi_window) t r j hj _

theorem featsAt_lastDet (lg sq : ℚ → ℚ) (cfg : FeatureConfig) {t t' : List Row} (r : Row)
    (hflt : t.filter (fun x => x.ticker == r.ticker) =
      t'.filter (fun x => x.ticker == r.ticker)) :
    featsAt lg sq cfg (t ++ [r]) t.length = featsAt lg sq cfg (t' ++ [r]) t'.length := by
  unfold featsAt
  simp only [Feats.mk.injEq]
  refine ⟨?_, ?_, ?_, ?_, ?_, ?_, ?_, ?_, ?_, ?_, ?_⟩
  · exact good_colRet.lastDet r hflt
  · exact (good_colLogret lg).lastDet r hflt
  · exact List.map_congr_left fun w _ => (good_colMom w).lastDet r hflt
  · exact List.map_congr_left fun w _ => (good_colMa w).lastDet r hflt
  · exact List.map_congr_left fun w _ => (good_colPma w).lastDet r hflt
  · exact List.map_congr_left fun w _ => (good_colVol lg sq w).lastDet r hflt
  · exact (good_colLogvol lg).lastDet r hflt
  · exact (good_colLogvolZ lg sq).lastDet r hflt
  · exact good_colHl.lastDet r hflt
  · exact good_colOc.lastDet r hflt
  · exact (good_colRsi cfg.rsi_window).lastDet r hflt

theorem bf_append (lg sq : ℚ → ℚ) (cfg : FeatureConfig) (t : List Row) (r : Row) :
    build_features lg sq cfg (t ++ [r]) =
      build_features lg sq cfg t ++ [(r, featsAt lg sq cfg (t ++ [r]) t.length)] := by
  unfold build_features
  rw [enumF_append, List.map_append]
  congr 1
  · apply List.map_congr_left
    rintro ⟨j, x⟩ hmem
    rcases mem_enumF hmem with ⟨k, hk, hj, hx⟩
    have hjk : j = k := by omega
    subst hjk; subst hx
    simp only [Prod.mk.injEq]
    exact ⟨trivial, featsAt_append lg sq cfg t r j hk⟩
  · simp [enumF]

theorem bf_filter (lg sq : ℚ → ℚ) (cfg : FeatureConfig) (D : Int) (t : List Row)
    (hsort : t.Pairwise (fun a b => a.ticker = b.ticker → a.date ≤ b.date)) :
    build_features lg sq cfg (t.filter (fun r => decide (r.date ≤ D))) =
      (build_features lg sq cfg t).filter (fun x => decide (x.1.date ≤ D)) := by
  induction t using List.reverseRecOn with
  | nil => rfl
  | append_singleton t r ih =>
    have hsort' : t.Pairwise (fun a b => a.ticker = b.ticker → a.date ≤ b.date) :=
      (List.pairwise_append.1 hsort).1
    have hrel : ∀ x ∈ t, x.ticker = r.ticker → x.date ≤ r.date := by
      intro x hx
      exact (List.pairwise_append.1 hsort).2.2 x hx r (List.mem_singleton.2 rfl)
    rw [List.filter_append, bf_append, List.filter_append]
    by_cases hd : r.date ≤ D
    · rw [show List.filter (fun r => decide (r.date ≤ D)) [r] = [r] by simp [hd]]
      rw [bf_append, ih hsort']
      congr 1
      · rw [show List.filter (fun x => decide (x.1.date ≤ D))
            [(r, featsAt lg sq cfg (t ++ [r]) t.length)] =
            [(r, featsAt lg sq cfg (t ++ [r]) t.length)] by simp [hd]]
        congr 2
        apply featsAt_lastDet
        rw [List.filter_filter]
        apply List.filter_congr
        intro x hx
        by_cases htk : x.ticker == r.ticker
        · have : x.date ≤ D := le_trans (hrel x hx (by simpa using htk)) hd
          simp [htk, this]
        · simp [htk]
    · rw [show List.filter (fun r => decide (r.date ≤ D)) [r] = [] by simp [hd],
        show List.filter (fun x => decide (x.1.date ≤ D))
          [(r, featsAt lg sq cfg (t ++ [r]) t.length)] = [] by simp [hd]]
      rw [List.append_nil, List.append_nil]
      exact ih hsort'

theorem bf_split (lg sq : ℚ → ℚ) (cfg : FeatureConfig) (ta tb : List Row) (A B : String)
    (ha : ∀ x ∈ ta, x.ticker = A) (hb : ∀ x ∈ tb, x.ticker = B) (hAB : A ≠ B) :
    build_features lg sq cfg (ta ++ tb) =
      build_features lg sq cfg ta ++ build_features lg sq cfg tb := by
  induction tb using List.reverseRecOn with
  | nil => simp [show build_features lg sq cfg [] = [] from rfl]
  | append_singleton tb r ih =>
    have hb' : ∀ x ∈ tb, x.ticker = B := fun x hx => hb x (by simp [hx])
    have hr : r.ticker = B := hb r (by simp)
    rw [← List.append_assoc, bf_append, ih hb', bf_append, List.append_assoc]
    congr 2
    have hflt : (ta ++ tb).filter (fun x => x.ticker == r.ticker) =
        tb.filter (fun x => x.ticker == r.ticker) := by
      rw [List.filter_append,
        show ta.filter (fun x => x.ticker == r.ticker) = [] from ?_, List.nil_append]
      rw [List.filter_eq_nil_iff]
      intro x hx
      simp only [beq_iff_eq]
      rw [ha x hx, hr]
      exact hAB
    have := featsAt_lastDet lg sq cfg r hflt
    rw [this]

/-! ## Claim theorems: C2, C3, C10 -/

/-- C2: for every input table (with dates ascending within each ticker)
and every cutoff date `D`, running the feature computation on the full
table and on the table truncated after `D` yields identical `(row,
features)` entries at every row whose date is at most `D - max_window`:
no feature column reads a future row. -/
theorem C2_causality (lg sq : ℚ → ℚ) (cfg : FeatureConfig) (D : Int) (t : List Row)
    (hsort : t.Pairwise (fun a b => a.ticker = b.ticker → a.date ≤ b.date)) :
    (build_features lg sq cfg (t.filter (fun r => decide (r.date ≤ D)))).filter
        (fun x => decide (x.1.date ≤ D - (maxWindow cfg : Int))) =
      (build_features lg sq cfg t).filter
        (fun x => decide (x.1.date ≤ D - (maxWindow cfg : Int))) := by
  rw [bf_filter lg sq cfg D t hsort, List.filter_filter]
  apply List.filter_congr
  intro x _
  by_cases h : x.1.date ≤ D - (maxWindow cfg : Int)
  · have hD : x.1.date ≤ D := by omega
    simp [h, hD]
  · simp [h]

/-- C3: computing features on two single-entity tables separately and
concatenating gives exactly the same rows and feature values as computing
features on the combined table: no window, shift or smoothing crosses an
entity boundary. -/
theorem C3_entity_isolation (lg sq : ℚ → ℚ) (cfg : FeatureConfig) (ta tb : List Row)
    (A B : String) (ha : ∀ x ∈ ta, x.ticker = A) (hb : ∀ x ∈ tb, x.ticker = B)
    (hAB : A ≠ B) :
    build_features lg sq cfg (ta ++ tb) =
      build_features lg sq cfg ta ++ build_features lg sq cfg tb :=
  bf_split lg sq cfg ta tb A B ha hb hAB

/-- C10: the feature stage and the labeling stage both return exactly
their input rows, in order and unchanged, only augmenting each row with
new columns. -/
theorem C10_frame_effect (lg sq : ℚ → ℚ) (cfg : FeatureConfig) (which : TargetHorizon)
    {α : Type _} (tkOf : α → String) (adj : α → V) (t : List Row) (u : List α) :
    (build_features lg sq cfg t).map Prod.fst = t ∧
      (add_targets tkOf adj cfg which u).map Prod.fst = u := by
  constructor
  · unfold build_features
    rw [List.map_map]
    exact (List.map_congr_left fun jr _ => rfl).trans (enumF_map_snd 0 t)
  · unfold add_targets
    rw [List.map_map]
    exact (List.map_congr_left fun jr _ => rfl).trans (enumF_map_snd 0 u)

/-- Witness for C2 at a concrete two-row table. -/
theorem C2_causality_witness :
    ([sampleRow "A" 0 1, sampleRow "A" 1 2].Pairwise
        (fun a b => a.ticker = b.ticker → a.date ≤ b.date)) ∧
      (build_features id id defaultCfg
          (([sampleRow "A" 0 1, sampleRow "A" 1 2]).filter
            (fun r => decide (r.date ≤ (1 : Int))))).filter
          (fun x => decide (x.1.date ≤ (1 : Int) - (maxWindow defaultCfg : Int))) =
        (build_features id id defaultCfg [sampleRow "A" 0 1, sampleRow "A" 1 2]).filter
          (fun x => decide (x.1.date ≤ (1 : Int) - (maxWindow defaultCfg : Int))) :=
  ⟨by decide, C2_causality id id defaultCfg 1 [sampleRow "A" 0 1, sampleRow "A" 1 2]
    (by decide)⟩

/-! ## Target-stage lemmas and C1 -/

theorem V.nan_add (x : V) : V.add V.nan x = V.nan := by cases x <;> rfl

theorem V.nan_div (x : V) : V.div V.nan x = V.nan := by cases x <;> rfl

theorem V.nan_sub (x : V) : V.sub V.nan x = V.nan := V.nan_add _

theorem idxMap_getD (g : List V → Nat → V) (s : List V) (i : Nat) :
    (idxMap g s).getD i V.nan = if i < s.length then g s i else V.nan := by
  unfold idxMap
  by_cases h : i < s.length
  · rw [List.getD_eq_getElem _ _ (by simpa using h), List.getElem_map, List.getElem_range,
      if_pos h]
  · rw [if_neg h, List.getD_eq_getElem?_getD, List.getElem?_eq_none (by simpa using not_lt.1 h)]
    rfl

theorem zipWith_getD {β γ : Type _} (g : V → β → γ) (a : List V) (b : List β) (j : Nat)
    (hja : j < a.length) (hjb : j < b.length) (d : γ) :
    (List.zipWith g a b).getD j d = g (a.get ⟨j, hja⟩) (b.get ⟨j, hjb⟩) := by
  induction a generalizing b j with
  | nil => cases hja
  | cons x xs ih =>
    cases b with
    | nil => cases hjb
    | cons y ys =>
      cases j with
      | zero => rfl
      | succ j' =>
        have hja' : j' < xs.length := by simpa using hja
        have hjb' : j' < ys.length := by simpa using hjb
        simpa [List.zipWith_cons_cons] using ih ys j' hja' hjb'

theorem futRetCol_getD {α : Type _} (tkOf : α → String) (adj : α → V) (h : Nat)
    (t : List α) (j : Nat) (hj : j < t.length) (d : V) :
    (futRetCol tkOf adj h t).getD j d =
      V.sub (V.div ((gbtOn tkOf (shiftNeg h) t (t.map adj)).getD j V.nan)
        (adj (t.get ⟨j, hj⟩))) (V.fin 1) := by
  unfold futRetCol
  rw [zipWith_getD _ _ _ j (by rw [gbtOn_length]; exact hj) hj d]
  congr 1
  rw [List.getD_eq_getElem _ _ (by rw [gbtOn_length]; exact hj)]
  rfl

/-- At a trailing row of its entity (rank within `h` of the end), the
forward-return column is NaN: no future observation exists. -/
theorem futRet_trailing {α : Type _} (tkOf : α → String) (adj : α → V) (h : Nat)
    (t : List α) (j : Nat) (hj : j < t.length)
    (htrail : (t.filter (fun x => tkOf x == tkOf (t.get ⟨j, hj⟩))).length ≤
      rankAt tkOf t j (tkOf (t.get ⟨j, hj⟩)) + h) :
    (futRetCol tkOf adj h t).getD j V.nan = V.nan := by
  rw [futRetCol_getD tkOf adj h t j hj V.nan, gbtOn_getD tkOf _ t _ j hj _, tkMask_mapSrc]
  have hslen : (((t.filter (fun x => tkOf x == tkOf (t.get ⟨j, hj⟩))).map adj)).length =
      (t.filter (fun x => tkOf x == tkOf (t.get ⟨j, hj⟩))).length := List.length_map _ _
  unfold shiftNeg
  rw [idxMap_getD]
  by_cases hr : rankAt tkOf t j (tkOf (t.get ⟨j, hj⟩)) <
      ((t.filter (fun x => tkOf x == tkOf (t.get ⟨j, hj⟩))).map adj).length
  · rw [if_pos hr, if_neg (by rw [hslen]; omega)]
    rw [V.nan_div, V.nan_sub]
  · rw [if_neg hr, V.nan_div, V.nan_sub]

/-- C1 counterexample: on a one-entity, one-row table with the default
config, the forward weekly/monthly returns of the (trailing) row are
undefined, yet both targets are the defined value `0` — not undefined as
the claim states. -/
theorem C1_counterexample :
    ((add_targets Row.ticker Row.adj_close defaultCfg TargetHorizon.both
        [sampleRow "A" 0 1]).map (fun x => x.2.future_ret_w) = [some V.nan]) ∧
      ((add_targets Row.ticker Row.adj_close defaultCfg TargetHorizon.both
        [sampleRow "A" 0 1]).map (fun x => x.2.target_w) = [some 0]) ∧
      some (0 : Int) ≠ none := by
  refine ⟨by decide, by decide, by decide⟩

/-- C1 (amended): for every entity and row, each requested target column
equals `1` when the forward return is defined and positive and `0`
otherwise — including `0` (not undefined) when the forward return is
undefined; the forward return itself is undefined for the trailing `h`
rows of each entity. -/
theorem C1_targets_amended {α : Type _} (tkOf : α → String) (adj : α → V)
    (cfg : FeatureConfig) (which : TargetHorizon) (t : List α) (j : Nat) (r : α)
    (tg : Targets)
    (h : (add_targets tkOf adj cfg which t)[j]? = some (r, tg)) :
    tg.target_w = tg.future_ret_w.map tgtOf ∧
      tg.target_m = tg.future_ret_m.map tgtOf ∧
      (tg.future_ret_w = some V.nan → tg.target_w = some 0) ∧
      (tg.future_ret_m = some V.nan → tg.target_m = some 0) ∧
      (∀ hj : j < t.length,
        (t.filter (fun x => tkOf x == tkOf (t.get ⟨j, hj⟩))).length ≤
            rankAt tkOf t j (tkOf (t.get ⟨j, hj⟩)) + cfg.horizon_weekly →
          wantsWeekly which = true → tg.future_ret_w = some V.nan) ∧
      (∀ hj : j < t.length,
        (t.filter (fun x => tkOf x == tkOf (t.get ⟨j, hj⟩))).length ≤
            rankAt tkOf t j (tkOf (t.get ⟨j, hj⟩)) + cfg.horizon_monthly →
          wantsMonthly which = true → tg.future_ret_m = some V.nan) := by
  have hjlen : j < t.length := by
    rcases List.getElem?_eq_some.1 h with ⟨hlt, _⟩
    rw [show (add_targets tkOf adj cfg which t).length = t.length from by
      unfold add_targets; rw [List.length_map, enumF_length]] at hlt
    exact hlt
  unfold add_targets at h
  rw [List.getElem?_map, enumF_getElem? 0 t j hjlen] at h
  simp only [Option.map_some', Option.some.injEq, Prod.mk.injEq, Nat.zero_add] at h
  obtain ⟨hr, htg⟩ := h
  subst hr
  refine ⟨?_, ?_, ?_, ?_, ?_, ?_⟩
  · rw [← htg]
    by_cases hw : wantsWeekly which <;> simp [hw]
  · rw [← htg]
    by_cases hw : wantsMonthly which <;> simp [hw]
  · intro hfr
    rw [← htg] at hfr ⊢
    by_cases hw : wantsWeekly which
    · simp only [hw, if_pos, Option.some.injEq] at hfr ⊢
      rw [hfr]
      rfl
    · simp [hw] at hfr
  · intro hfr
    rw [← htg] at hfr ⊢
    by_cases hw : wantsMonthly which
    · simp only [hw, if_pos, Option.some.injEq] at hfr ⊢
      rw [hfr]
      rfl
    · simp [hw] at hfr
  · intro hj htrail hw
    rw [← htg]
    simp only [hw, if_pos, Option.some.injEq]
    exact futRet_trailing tkOf adj cfg.horizon_weekly t j hj htrail
  · intro hj htrail hw
    rw [← htg]
    simp only [hw, if_pos, Option.some.injEq]
    exact futRet_trailing tkOf adj cfg.horizon_monthly t j hj htrail

/-- Witness for the amended C1 at a concrete one-row table. -/
theorem C1_targets_amended_witness :
    ((add_targets Row.ticker Row.adj_close defaultCfg TargetHorizon.both
        [sampleRow "A" 0 1])[0]? =
      some (sampleRow "A" 0 1, ⟨some V.nan, some 0, some V.nan, some 0⟩)) ∧
      (⟨some V.nan, some 0, some V.nan, some 0⟩ : Targets).target_w =
        (⟨some V.nan, some 0, some V.nan, some 0⟩ : Targets).future_ret_w.map tgtOf :=
  ⟨by decide,
   (C1_targets_amended Row.ticker Row.adj_close defaultCfg TargetHorizon.both
      [sampleRow "A" 0 1] 0 (sampleRow "A" 0 1)
      ⟨some V.nan, some 0, some V.nan, some 0⟩ (by decide)).1⟩

/-! ## Normalizer lemmas: C5 and C8 -/

theorem mem_load {raw : List RawRow} {r : Row} (hr : r ∈ load_long_dataset raw) :
    ∃ rr ∈ raw, keepRaw rr = true ∧ r = normalizeRow rr := by
  unfold load_long_dataset at hr
  rw [(List.perm_insertionSort rowLE _).mem_iff] at hr
  rcases List.mem_map.1 hr with ⟨rr, hrr, hmap⟩
  rcases List.mem_filter.1 hrr with ⟨hmem, hkeep⟩
  exact ⟨rr, hmem, hkeep, hmap.symm⟩

theorem adjCloseOf_pos {q : ℚ} (hq : 0 < q) (cl : V) : adjCloseOf (V.fin q) cl = V.fin q := by
  simp [adjCloseOf, V.isNan, V.le, not_le.2 hq]

theorem adjCloseOf_nonpos {q : ℚ} (hq : q ≤ 0) (cl : V) : adjCloseOf (V.fin q) cl = V.nan := by
  simp [adjCloseOf, V.isNan, V.le, hq]

theorem adjCloseOf_nan_pos {c : ℚ} (hc : 0 < c) :
    adjCloseOf V.nan (V.fin c) = V.fin c := by
  simp [adjCloseOf, V.isNan, V.le, not_le.2 hc]

theorem adjCloseOf_nan_nonpos {c : ℚ} (hc : c ≤ 0) : adjCloseOf V.nan (V.fin c) = V.nan := by
  simp [adjCloseOf, V.isNan, V.le, hc]

/-- C5 counterexample: a raw row whose source adjusted close is present
but negative (`-5`) while `close = 10` is positive yields an undefined
`adj_close`, not `close` as the claim states. -/
theorem C5_counterexample :
    (load_long_dataset [rawNegAdj]).map (fun r => (r.adjustedClose, r.close, r.adj_close)) =
        [(V.fin (-5), V.fin 10, V.nan)] ∧
      V.nan ≠ V.fin 10 := by
  refine ⟨by decide, by decide⟩

/-- C5 (amended): the Normalizer keeps the source adjusted-close value
whenever it is present — regardless of sign — and falls back to `close`
only when it is absent; any non-positive result (from either source) is
then set to undefined.  In particular a present non-positive source value
yields an undefined `adj_close` even when `close` is positive. -/
theorem C5_adjusted_close_amended (raw : List RawRow) (r : Row)
    (hr : r ∈ load_long_dataset raw) :
    (∀ q : ℚ, 0 < q → r.adjustedClose = V.fin q → r.adj_close = V.fin q) ∧
      (∀ q : ℚ, q ≤ 0 → r.adjustedClose = V.fin q → r.adj_close = V.nan) ∧
      (r.adjustedClose = V.nan → ∀ c : ℚ, 0 < c → r.close = V.fin c →
        r.adj_close = r.close) ∧
      (r.adjustedClose = V.nan → ∀ c : ℚ, c ≤ 0 → r.close = V.fin c →
        r.adj_close = V.nan) ∧
      (r.adjustedClose = V.nan → r.close = V.nan → r.adj_close = V.nan) := by
  rcases mem_load hr with ⟨rr, _, _, hmap⟩
  subst hmap
  unfold normalizeRow
  refine ⟨?_, ?_, ?_, ?_, ?_⟩
  · intro q hq hac
    simp only at hac ⊢
    rw [hac, adjCloseOf_pos hq]
  · intro q hq hac
    simp only at hac ⊢
    rw [hac, adjCloseOf_nonpos hq]
  · intro hac c hc hcl
    simp only at hac hcl ⊢
    rw [hac, hcl, adjCloseOf_nan_pos hc]
  · intro hac c hc hcl
    simp only at hac hcl ⊢
    rw [hac, hcl, adjCloseOf_nan_nonpos hc]
  · intro hac hcl
    simp only at hac hcl ⊢
    rw [hac, hcl]
    rfl

/-- Witness for the amended C5. -/
theorem C5_adjusted_close_amended_witness :
    (load_long_dataset [rawNegAdj] = [normalizeRow rawNegAdj]) ∧
      (normalizeRow rawNegAdj).adj_close = V.nan :=
  ⟨by decide,
   (C5_adjusted_close_amended [rawNegAdj] (normalizeRow rawNegAdj)
     (by rw [show load_long_dataset [rawNegAdj] = [normalizeRow rawNegAdj] from by decide]
         exact List.mem_singleton.2 rfl)).2.1
     (-5) (by norm_num) (by decide)⟩

/-- C8 counterexample: a raw row whose `close` cell is present but
non-parseable text (so `notna` holds but numeric coercion fails) is
retained by the Normalizer with an undefined `close`, contradicting the
claim that such rows are dropped. -/
theorem C8_counterexample :
    (load_long_dataset [rawTextClose]).map Row.close = [V.nan] ∧
      (load_long_dataset [rawTextClose]).length = 1 := by
  refine ⟨by decide, by decide⟩

/-- C8 (amended): every row surviving the Normalizer comes from a raw row
whose date coercion succeeded and whose `ticker` and `close` cells were
present (rows failing any of these are dropped); however, because numeric
coercion happens after the drop, a retained row's `close` may still be
undefined — exactly when the raw cell was present but non-parseable
text. -/
theorem C8_normalizer_amended (raw : List RawRow) (r : Row)
    (hr : r ∈ load_long_dataset raw) :
    ∃ rr ∈ raw,
      (rr.date.isSome = true ∧ rr.ticker.isSome = true ∧ rr.close.notna = true) ∧
      r = normalizeRow rr ∧
      (r.close = V.nan → rr.close = RawVal.text none) := by
  rcases mem_load hr with ⟨rr, hmem, hkeep, hmap⟩
  unfold keepRaw at hkeep
  simp only [Bool.and_eq_true] at hkeep
  refine ⟨rr, hmem, ⟨hkeep.1.1, hkeep.1.2, hkeep.2⟩, hmap, ?_⟩
  intro hclose
  subst hmap
  unfold normalizeRow at hclose
  simp only at hclose
  cases hc : rr.close with
  | na => rw [hc] at hkeep; cases hkeep.2
  | num q => rw [hc] at hclose; cases hclose
  | text o =>
    cases o with
    | none => rfl
    | some q => rw [hc] at hclose; cases hclose

/-- Witness for the amended C8. -/
theorem C8_normalizer_amended_witness :
    (load_long_dataset [rawTextClose] = [normalizeRow rawTextClose]) ∧
      ∃ rr ∈ [rawTextClose],
        (rr.date.isSome = true ∧ rr.ticker.isSome = true ∧ rr.close.notna = true) ∧
        normalizeRow rawTextClose = normalizeRow rr ∧
        ((normalizeRow rawTextClose).close = V.nan → rr.close = RawVal.text none) :=
  ⟨by decide,
   C8_normalizer_amended [rawTextClose] (normalizeRow rawTextClose)
     (by rw [show load_long_dataset [rawTextClose] = [normalizeRow rawTextClose] from by decide]
         exact List.mem_singleton.2 rfl)⟩

/-! ## Finalizer: C9 -/

/-- C9: the Finalizer fails — naming a missing column — exactly when some
required feature column is absent; otherwise it returns exactly the rows
whose required cells are all defined, sorted by `(date, ticker)`
ascending, and an undefined target cell never causes a row to be dropped
(rows are gated only on the `must_have` columns). -/
theorem C9_finalizer (cfg : FeatureConfig) (cols : List String) (rows : List FinRow) :
    ((∃ c ∈ mustHave cfg, c ∉ cols) ↔ ∃ e, finalize_dataset cfg cols rows = .error e) ∧
      (∀ e, finalize_dataset cfg cols rows = .error e → e ∈ mustHave cfg ∧ e ∉ cols) ∧
      (∀ l, finalize_dataset cfg cols rows = .ok l →
        l.Perm (rows.filter (reqDef cfg cols)) ∧
        List.Sorted finLE l ∧
        (∀ r ∈ rows, reqDef cfg cols r = true → r ∈ l)) := by
  cases hfind : (mustHave cfg).find? (fun c => !(cols.contains c)) with
  | none =>
    have hall : ∀ c ∈ mustHave cfg, c ∈ cols := by
      intro c hc
      have := List.find?_eq_none.1 hfind c hc
      simp only [Bool.not_eq_true', Bool.not_eq_false] at this
      exact List.mem_of_elem_eq_true this
    refine ⟨?_, ?_, ?_⟩
    · constructor
      · rintro ⟨c, hc, hnc⟩
        exact absurd (hall c hc) hnc
      · rintro ⟨e, he⟩
        rw [finalize_dataset, hfind] at he
        cases he
    · intro e he
      rw [finalize_dataset, hfind] at he
      cases he
    · intro l hl
      rw [finalize_dataset, hfind] at hl
      have hl' : (rows.filter (reqDef cfg cols)).insertionSort finLE = l := by
        cases hl; rfl
      refine ⟨?_, ?_, ?_⟩
      · rw [← hl']
        exact List.perm_insertionSort finLE _
      · rw [← hl']
        exact List.sorted_insertionSort finLE _
      · intro r hr hreq
        rw [← hl', (List.perm_insertionSort finLE _).mem_iff]
        exact List.mem_filter.2 ⟨hr, hreq⟩
  | some c =>
    have hcm := List.mem_of_find?_eq_some hfind
    have hcp := List.find?_some hfind
    have hcnot : c ∉ cols := by
      simp only [Bool.not_eq_true'] at hcp
      intro hmem
      have h2 : cols.contains c = true := List.elem_eq_true_of_mem hmem
      rw [h2] at hcp
      cases hcp
    refine ⟨?_, ?_, ?_⟩
    · constructor
      · intro _
        refine ⟨c, ?_⟩
        rw [finalize_dataset, hfind]
      · intro _
        exact ⟨c, hcm, hcnot⟩
    · intro e he
      rw [finalize_dataset, hfind] at he
      cases he
      exact ⟨hcm, hcnot⟩
    · intro l hl
      rw [finalize_dataset, hfind] at hl
      cases hl

/-- Witness for C9: all required columns present, one fully defined row. -/
theorem C9_finalizer_witness :
    (finalize_dataset defaultCfg (mustHave defaultCfg)
        [⟨0, "A", [V.fin 1, V.fin 2, V.fin 3, V.fin 4, V.fin 5]⟩] =
      .ok [⟨0, "A", [V.fin 1, V.fin 2, V.fin 3, V.fin 4, V.fin 5]⟩]) ∧
      ([(⟨0, "A", [V.fin 1, V.fin 2, V.fin 3, V.fin 4, V.fin 5]⟩ : FinRow)].Perm
        ([⟨0, "A", [V.fin 1, V.fin 2, V.fin 3, V.fin 4, V.fin 5]⟩].filter
          (reqDef defaultCfg (mustHave defaultCfg))) ∧
       List.Sorted finLE [⟨0, "A", [V.fin 1, V.fin 2, V.fin 3, V.fin 4, V.fin 5]⟩] ∧
       (∀ r ∈ [(⟨0, "A", [V.fin 1, V.fin 2, V.fin 3, V.fin 4, V.fin 5]⟩ : FinRow)],
         reqDef defaultCfg (mustHave defaultCfg) r = true →
           r ∈ [(⟨0, "A", [V.fin 1, V.fin 2, V.fin 3, V.fin 4, V.fin 5]⟩ : FinRow)])) :=
  ⟨by decide,
   (C9_finalizer defaultCfg (mustHave defaultCfg)
      [⟨0, "A", [V.fin 1, V.fin 2, V.fin 3, V.fin 4, V.fin 5]⟩]).2.2
     [⟨0, "A", [V.fin 1, V.fin 2, V.fin 3, V.fin 4, V.fin 5]⟩] (by decide)⟩

/-! ## Wilder smoothing value analysis: C6 -/

theorem alpha_bounds (n : Nat) : 0 ≤ 1 / (n : ℚ) ∧ 1 / (n : ℚ) ≤ 1 := by
  cases n with
  | zero => norm_num
  | succ m =>
    have hpos : (0 : ℚ) < ((m : ℚ) + 1) := by positivity
    constructor
    · positivity
    · rw [show ((Nat.succ m : ℕ) : ℚ) = (m : ℚ) + 1 by push_cast; ring, div_le_one hpos]
      linarith [Rat.num_nonneg.2 (show (0:ℚ) ≤ (m : ℚ) from by positivity)]

theorem clip0_nnV (v : V) : nnV (V.clip0 v) := by
  cases v with
  | nan => exact Or.inl rfl
  | pinf => exact Or.inr (Or.inl rfl)
  | ninf => exact Or.inr (Or.inr ⟨0, le_refl 0, rfl⟩)
  | fin q =>
    by_cases hq : q ≤ 0
    · exact Or.inr (Or.inr ⟨0, le_refl 0, by simp [V.clip0, hq]⟩)
    · exact Or.inr (Or.inr ⟨q, le_of_lt (not_le.1 hq), by simp [V.clip0, hq]⟩)

theorem mul_zero_left (v : V) : V.mul (V.fin 0) v = V.nan ∨ V.mul (V.fin 0) v = V.fin 0 := by
  cases v with
  | nan => exact Or.inl rfl
  | pinf => exact Or.inl (by simp [V.mul])
  | ninf => exact Or.inl (by simp [V.mul])
  | fin q => exact Or.inr (by simp [V.mul])

theorem mul_fin_nnV {c : ℚ} (hc : 0 ≤ c) {v : V} (hv : nnV v) : nnV (V.mul (V.fin c) v) := by
  rcases hv with h | h | ⟨q, hq, h⟩ <;> subst h
  · exact Or.inl rfl
  · rcases eq_or_lt_of_le hc with hc0 | hc0
    · exact Or.inl (by simp [V.mul, ← hc0])
    · exact Or.inr (Or.inl (by simp [V.mul, hc0]))
  · exact Or.inr (Or.inr ⟨c * q, mul_nonneg hc hq, rfl⟩)

theorem add_nnV {u v : V} (hu : nnV u) (hv : nnV v) : nnV (V.add u v) := by
  rcases hu with h | h | ⟨a, ha, h⟩ <;> subst h
  · exact Or.inl (by cases v <;> rfl)
  · rcases hv with h | h | ⟨b, hb, h⟩ <;> subst h
    · exact Or.inl rfl
    · exact Or.inr (Or.inl rfl)
    · exact Or.inr (Or.inl rfl)
  · rcases hv with h | h | ⟨b, hb, h⟩ <;> subst h
    · exact Or.inl rfl
    · exact Or.inr (Or.inl rfl)
    · exact Or.inr (Or.inr ⟨a + b, add_nonneg ha hb, rfl⟩)

theorem div_pos_nnV {d : ℚ} (hd : 0 < d) {u : V} (hu : nnV u) : nnV (V.div u (V.fin d)) := by
  rcases hu with h | h | ⟨a, ha, h⟩ <;> subst h
  · exact Or.inl rfl
  · exact Or.inr (Or.inl (by simp [V.div, le_of_lt hd]))
  · exact Or.inr (Or.inr ⟨a / d, div_nonneg ha (le_of_lt hd), by simp [V.div, ne_of_gt hd]⟩)

theorem comb_nnV (w1 a : ℚ) (hw1 : 0 ≤ w1) (ha : 0 ≤ a) {u x : V} (hu : nnV u) (hx : nnV x) :
    nnV (V.div (V.add (V.mul (V.fin w1) u) (V.mul (V.fin a) x)) (V.fin (w1 + a))) := by
  rcases eq_or_lt_of_le (add_nonneg hw1 ha) with h0 | h0
  · have hww : w1 = 0 := by linarith
    have haa : a = 0 := by linarith
    subst hww; subst haa
    rcases mul_zero_left u with h1 | h1 <;> rcases mul_zero_left x with h2 | h2 <;>
      rw [h1, h2] <;> exact Or.inl (by norm_num [V.add, V.div])
  · exact div_pos_nnV h0 (add_nnV (mul_fin_nnV hw1 hu) (mul_fin_nnV ha hx))

theorem ewmStep_nnV {a : ℚ} (ha0 : 0 ≤ a) (ha1 : a ≤ 1) {st : EwSt} (havg : nnV st.avg)
    (hwt : 0 ≤ st.wt) {x : V} (hx : nnV x) :
    nnV (ewmStep a st x).avg ∧ 0 ≤ (ewmStep a st x).wt := by
  unfold ewmStep
  by_cases hn : st.avg.isNan
  · rw [if_pos hn]
    by_cases hxn : x.isNan
    · rw [if_pos hxn]; exact ⟨havg, hwt⟩
    · rw [if_neg hxn]; exact ⟨hx, by norm_num⟩
  · rw [if_neg hn]
    by_cases hxn : x.isNan
    · rw [if_pos hxn]
      exact ⟨havg, mul_nonneg hwt (by linarith)⟩
    · rw [if_neg hxn]
      exact ⟨comb_nnV _ _ (mul_nonneg hwt (by linarith)) ha0 havg hx, by norm_num⟩

theorem ewmGo_cons (a : ℚ) (minp : Nat) (st : EwSt) (x : V) (rest : List V) :
    ewmGo a minp st (x :: rest) =
      (if minp ≤ (ewmStep a st x).nobs then (ewmStep a st x).avg else V.nan) ::
        ewmGo a minp (ewmStep a st x) rest := rfl

theorem ewmGo_nnV {a : ℚ} (ha0 : 0 ≤ a) (ha1 : a ≤ 1) (minp : Nat) :
    ∀ (s : List V) (st : EwSt), nnV st.avg → 0 ≤ st.wt → (∀ x ∈ s, nnV x) →
      ∀ y ∈ ewmGo a minp st s, nnV y := by
  intro s
  induction s with
  | nil => intro st _ _ _ y hy; cases hy
  | cons x xs ih =>
    intro st havg hwt hs y hy
    rw [ewmGo_cons] at hy
    have hstep := ewmStep_nnV ha0 ha1 havg hwt (hs x (List.mem_cons_self x xs))
    rcases List.mem_cons.1 hy with hy | hy
    · subst hy
      by_cases hm : minp ≤ (ewmStep a st x).nobs
      · rw [if_pos hm]; exact hstep.1
      · rw [if_neg hm]; exact Or.inl rfl
    · exact ih (ewmStep a st x) hstep.1 hstep.2
        (fun z hz => hs z (List.mem_cons_of_mem x hz)) y hy

theorem gainSeries_nnV (s : List V) : ∀ x ∈ gainSeries s, nnV x := by
  intro x hx
  rcases List.mem_map.1 hx with ⟨d, _, rfl⟩
  exact clip0_nnV d

theorem lossSeries_nnV (s : List V) : ∀ x ∈ lossSeries s, nnV x := by
  intro x hx
  rcases List.mem_map.1 hx with ⟨d, _, rfl⟩
  exact clip0_nnV (V.neg d)

theorem avgGainF_nnV (n : Nat) (s : List V) : ∀ y ∈ avgGainF n s, nnV y := by
  intro y hy
  unfold avgGainF ewmMean at hy
  exact ewmGo_nnV (alpha_bounds n).1 (alpha_bounds n).2 n (gainSeries s) _
    (Or.inl rfl) (by norm_num) (gainSeries_nnV s) y hy

theorem avgLossF_nnV (n : Nat) (s : List V) : ∀ y ∈ avgLossF n s, nnV y := by
  intro y hy
  unfold avgLossF ewmMean at hy
  exact ewmGo_nnV (alpha_bounds n).1 (alpha_bounds n).2 n (lossSeries s) _
    (Or.inl rfl) (by norm_num) (lossSeries_nnV s) y hy

theorem rep0nan_shape {v : V} (hv : nnV v) :
    V.rep0nan v = V.nan ∨ V.rep0nan v = V.pinf ∨ ∃ q, 0 < q ∧ V.rep0nan v = V.fin q := by
  rcases hv with h | h | ⟨q, hq, h⟩ <;> subst h
  · exact Or.inl rfl
  · exact Or.inr (Or.inl rfl)
  · rcases eq_or_lt_of_le hq with h0 | h0
    · exact Or.inl (by simp [V.rep0nan, ← h0])
    · exact Or.inr (Or.inr ⟨q, h0, by simp [V.rep0nan, ne_of_gt h0]⟩)

theorem rs_nnV {g l : V} (hg : nnV g) (hl : nnV l) : nnV (V.div g (V.rep0nan l)) := by
  rcases rep0nan_shape hl with h | h | ⟨q, hq, h⟩ <;> rw [h]
  · exact Or.inl (by cases g <;> rfl)
  · rcases hg with h2 | h2 | ⟨p, hp, h2⟩ <;> subst h2
    · exact Or.inl rfl
    · exact Or.inl rfl
    · exact Or.inr (Or.inr ⟨0, le_refl 0, rfl⟩)
  · rcases hg with h2 | h2 | ⟨p, hp, h2⟩ <;> subst h2
    · exact Or.inl rfl
    · exact Or.inr (Or.inl (by simp [V.div, le_of_lt hq]))
    · exact Or.inr (Or.inr ⟨p / q, div_nonneg hp (le_of_lt hq), by simp [V.div, ne_of_gt hq]⟩)

theorem rsiOf_shape {g l : V} (hg : nnV g) (hl : nnV l) :
    rsiOf g l = V.nan ∨ ∃ q, 0 ≤ q ∧ q ≤ 100 ∧ rsiOf g l = V.fin q := by
  unfold rsiOf
  rcases rs_nnV hg hl with h | h | ⟨q, hq, h⟩ <;> rw [h]
  · exact Or.inl rfl
  · exact Or.inr ⟨100, by norm_num, le_refl 100,
      by norm_num [V.add, V.div, V.sub, V.neg]⟩
  · right
    have h1 : (0 : ℚ) < 1 + q := by linarith
    refine ⟨100 - 100 / (1 + q), ?_, ?_, ?_⟩
    · have : 100 / (1 + q) ≤ 100 := by
        rw [div_le_iff₀ h1]; nlinarith
      linarith
    · have : 0 < 100 / (1 + q) := by positivity
      linarith
    · simp [V.add, V.div, V.sub, V.neg, ne_of_gt h1, sub_eq_add_neg]

theorem rsiOf_zero_loss (g : V) : rsiOf g (V.fin 0) = V.nan := by
  cases g <;> rfl

theorem rsiOf_nan_loss (g : V) : rsiOf g V.nan = V.nan := by
  cases g <;> rfl

theorem getD_oob {α : Type _} {l : List α} {i : Nat} (h : l.length ≤ i) (d : α) :
    l.getD i d = d := by
  rw [List.getD_eq_getElem?_getD, List.getElem?_eq_none h]
  rfl

theorem rsiF_getD (n : Nat) (s : List V) (i : Nat) (hi : i < s.length) :
    (rsiF n s).getD i V.nan =
      rsiOf ((avgGainF n s).getD i V.nan) ((avgLossF n s).getD i V.nan) := by
  unfold rsiF
  have h1 : i < (avgGainF n s).length := by rw [(causal_avgGain n).len]; exact hi
  have h2 : i < (avgLossF n s).length := by rw [(causal_avgLoss n).len]; exact hi
  rw [zipWith_getD rsiOf _ _ i h1 h2]
  rw [List.get_eq_getElem, List.get_eq_getElem, ← List.getD_eq_getElem _ V.nan h1,
    ← List.getD_eq_getElem _ V.nan h2]

theorem ewmStep_nobs (a : ℚ) (st : EwSt) (x : V) :
    (ewmStep a st x).nobs = st.nobs + (if x.isNan then 0 else 1) := by
  unfold ewmStep
  by_cases hn : st.avg.isNan <;> by_cases hxn : x.isNan <;> simp [hn, hxn]

theorem ewmGo_nan_of_count (a : ℚ) (minp : Nat) :
    ∀ (s : List V) (st : EwSt) (i : Nat),
      st.nobs + (s.take (i + 1)).countP (fun x => !x.isNan) < minp →
      (ewmGo a minp st s).getD i V.nan = V.nan := by
  intro s
  induction s with
  | nil => intro st i _; rfl
  | cons x xs ih =>
    intro st i h
    rw [List.take_succ_cons, List.countP_cons] at h
    rw [ewmGo_cons]
    by_cases hx : x.isNan
    · simp only [hx, Bool.not_true, Bool.false_eq_true, if_neg, Nat.add_zero,
        not_false_iff] at h
      cases i with
      | zero =>
        rw [List.getD_cons_zero, if_neg]
        rw [ewmStep_nobs]
        simp only [hx, if_pos, Nat.add_zero]
        have hle : (List.take 0 xs).countP (fun x => !x.isNan) = 0 := by simp
        omega
      | succ i' =>
        rw [List.getD_cons_succ]
        apply ih
        rw [ewmStep_nobs]
        simp only [hx, if_pos, Nat.add_zero]
        omega
    · simp only [hx, Bool.not_false, if_pos] at h
      cases i with
      | zero =>
        rw [List.getD_cons_zero, if_neg]
        rw [ewmStep_nobs]
        simp only [hx, Bool.false_eq_true, if_neg, not_false_iff]
        omega
      | succ i' =>
        rw [List.getD_cons_succ]
        apply ih
        rw [ewmStep_nobs]
        simp only [hx, Bool.false_eq_true, if_neg, not_false_iff]
        omega

/-- C6: whenever the oscillator value `rsi[i]` is defined (a finite
number) it lies in `[0, 100]`; and it is undefined both when the smoothed
average loss at `i` is zero (the zero is replaced by NaN before dividing)
and when fewer than `window` observations have contributed by `i`. -/
theorem C6_rsi_bounds (n : Nat) (s : List V) (i : Nat) :
    (∀ q : ℚ, (rsiF n s).getD i V.nan = V.fin q → 0 ≤ q ∧ q ≤ 100) ∧
      ((avgLossF n s).getD i V.nan = V.fin 0 → (rsiF n s).getD i V.nan = V.nan) ∧
      (obsCount (lossSeries s) i < n → (rsiF n s).getD i V.nan = V.nan) := by
  by_cases hi : i < s.length
  · refine ⟨?_, ?_, ?_⟩
    · intro q hq
      rw [rsiF_getD n s i hi] at hq
      have hg : nnV ((avgGainF n s).getD i V.nan) := by
        rcases getD_cases (avgGainF n s) i V.nan with h | h
        · rw [h]; exact Or.inl rfl
        · exact avgGainF_nnV n s _ h
      have hl : nnV ((avgLossF n s).getD i V.nan) := by
        rcases getD_cases (avgLossF n s) i V.nan with h | h
        · rw [h]; exact Or.inl rfl
        · exact avgLossF_nnV n s _ h
      rcases rsiOf_shape hg hl with h | ⟨q', h0, h100, heq⟩
      · rw [h] at hq; cases hq
      · rw [heq] at hq
        injection hq with e
        rw [← e]
        exact ⟨h0, h100⟩
    · intro h0
      rw [rsiF_getD n s i hi, h0]
      exact rsiOf_zero_loss _
    · intro hcnt
      rw [rsiF_getD n s i hi]
      have hnan : (avgLossF n s).getD i V.nan = V.nan := by
        unfold avgLossF ewmMean
        exact ewmGo_nan_of_count _ n (lossSeries s) _ i (by simpa [obsCount] using hcnt)
      rw [hnan]
      exact rsiOf_nan_loss _
  · have hlen : (rsiF n s).length ≤ i := by rw [(causal_rsiF n).len]; omega
    rw [getD_oob hlen]
    refine ⟨?_, ?_, ?_⟩
    · intro q hq
      cases hq
    · intro _
      rfl
    · intro _
      rfl

/-- Witness for C6: on a two-observation rising series, the smoothed loss
is zero at index 1 and the oscillator is undefined there. -/
theorem C6_rsi_bounds_witness :
    ((avgLossF 1 [V.fin 1, V.fin 2]).getD 1 V.nan = V.fin 0) ∧
      (rsiF 1 [V.fin 1, V.fin 2]).getD 1 V.nan = V.nan :=
  ⟨by with_unfolding_all decide,
   (C6_rsi_bounds 1 [V.fin 1, V.fin 2] 1).2.1 (by with_unfolding_all decide)⟩

/-! ## Monotone price series and the oscillator: C7 -/

theorem mem_idxMap {g : List V → Nat → V} {s : List V} {x : V} (h : x ∈ idxMap g s) :
    ∃ i, i < s.length ∧ x = g s i := by
  unfold idxMap at h
  rcases List.mem_map.1 h with ⟨i, hi, rfl⟩
  exact ⟨i, List.mem_range.1 hi, rfl⟩

theorem getD_map_lt {f : V → V} {l : List V} {i : Nat} (hi : i < l.length) (d d' : V) :
    (l.map f).getD i d = f (l.getD i d') := by
  rw [List.getD_eq_getElem _ _ (by simpa using hi), List.getElem_map,
    List.getD_eq_getElem _ _ hi]

theorem tail_getD {α : Type _} (l : List α) (j : Nat) (d : α) :
    l.tail.getD j d = l.getD (j + 1) d := by
  cases l with
  | nil => rfl
  | cons x xs => rfl

theorem atV_map_fin (qs : List ℚ) (i : Nat) (hi : i < qs.length) :
    atV (qs.map V.fin) i = V.fin (qs.getD i 0) := by
  unfold atV
  rw [List.getD_eq_getElem _ _ (by simpa using hi), List.getElem_map,
    List.getD_eq_getElem _ _ hi]

theorem fin_sub_fin (a b : ℚ) : V.sub (V.fin a) (V.fin b) = V.fin (a - b) := by
  simp [V.sub, V.add, V.neg, sub_eq_add_neg]

theorem clip0_neg_of_pos {q : ℚ} (hq : 0 < q) : V.clip0 (V.neg (V.fin q)) = V.fin 0 := by
  simp [V.neg, V.clip0, le_of_lt (neg_neg_of_pos hq)]

theorem clip0_of_nonpos {q : ℚ} (hq : q ≤ 0) : V.clip0 (V.fin q) = V.fin 0 := by
  simp [V.clip0, hq]

theorem get_eq_getD {α : Type _} (l : List α) (i : Nat) (h : i < l.length) (d : α) :
    l.get ⟨i, h⟩ = l.getD i d := by
  rw [List.get_eq_getElem, List.getD_eq_getElem _ _ h]

theorem chain'_lt_getD (qs : List ℚ) (h : List.Chain' (· < ·) qs) (i : Nat) (h1 : 1 ≤ i)
    (hi : i < qs.length) : qs.getD (i - 1) 0 < qs.getD i 0 := by
  have h2 : i - 1 < qs.length - 1 := by omega
  have hstep := List.chain'_iff_get.1 h (i - 1) h2
  have heq : i - 1 + 1 = i := by omega
  rw [get_eq_getD qs (i - 1) (by omega) 0, get_eq_getD qs (i - 1 + 1) (by omega) 0,
    heq] at hstep
  exact hstep

theorem chain'_gt_getD (qs : List ℚ) (h : List.Chain' (· > ·) qs) (i : Nat) (h1 : 1 ≤ i)
    (hi : i < qs.length) : qs.getD i 0 < qs.getD (i - 1) 0 := by
  have h2 : i - 1 < qs.length - 1 := by omega
  have hstep := List.chain'_iff_get.1 h (i - 1) h2
  have heq : i - 1 + 1 = i := by omega
  rw [get_eq_getD qs (i - 1) (by omega) 0, get_eq_getD qs (i - 1 + 1) (by omega) 0,
    heq] at hstep
  exact hstep

/-- On a strictly rising finite price series every loss entry is NaN (the
leading diff) or exactly zero. -/
theorem lossSeries_rising (qs : List ℚ) (hchain : List.Chain' (· < ·) qs) :
    ∀ x ∈ lossSeries (qs.map V.fin), x = V.nan ∨ x = V.fin 0 := by
  intro x hx
  rcases List.mem_map.1 hx with ⟨d, hd, rfl⟩
  rcases mem_idxMap hd with ⟨i, hi, rfl⟩
  have hi' : i < qs.length := by simpa using hi
  by_cases h1 : 1 ≤ i
  · right
    simp only [h1, if_pos]
    have hi1 : i - 1 < qs.length := by omega
    rw [atV_map_fin qs i hi', atV_map_fin qs (i - 1) hi1, fin_sub_fin]
    exact clip0_neg_of_pos (sub_pos.2 (chain'_lt_getD qs hchain i h1 hi'))
  · left
    simp only [h1, if_neg, not_false_iff]
    rfl

/-- Zero-line closure of the EWM: over inputs that are NaN or zero, every
state average and output is NaN or zero. -/
theorem ewmStep_zeroline (a : ℚ) {st : EwSt} (havg : st.avg = V.nan ∨ st.avg = V.fin 0)
    {x : V} (hx : x = V.nan ∨ x = V.fin 0) :
    (ewmStep a st x).avg = V.nan ∨ (ewmStep a st x).avg = V.fin 0 := by
  unfold ewmStep
  by_cases hn : st.avg.isNan
  · rw [if_pos hn]
    by_cases hxn : x.isNan
    · rw [if_pos hxn]; exact havg
    · rw [if_neg hxn]; exact hx
  · rw [if_neg hn]
    by_cases hxn : x.isNan
    · rw [if_pos hxn]; exact havg
    · rw [if_neg hxn]
      have havg0 : st.avg = V.fin 0 := by
        rcases havg with h | h
        · rw [h] at hn; exact absurd rfl hn
        · exact h
      have hx0 : x = V.fin 0 := by
        rcases hx with h | h
        · rw [h] at hxn; exact absurd rfl hxn
        · exact h
      rw [havg0, hx0]
      by_cases hden : st.wt * (1 - a) + a = 0
      · left
        simp [V.mul, V.add, V.div, hden]
      · right
        simp [V.mul, V.add, V.div, hden]

theorem ewmGo_zeroline (a : ℚ) (minp : Nat) :
    ∀ (s : List V) (st : EwSt), (st.avg = V.nan ∨ st.avg = V.fin 0) →
      (∀ x ∈ s, x = V.nan ∨ x = V.fin 0) →
      ∀ y ∈ ewmGo a minp st s, y = V.nan ∨ y = V.fin 0 := by
  intro s
  induction s with
  | nil => intro st _ _ y hy; cases hy
  | cons x xs ih =>
    intro st havg hs y hy
    rw [ewmGo_cons] at hy
    have hstep := ewmStep_zeroline a havg (hs x (List.mem_cons_self x xs))
    rcases List.mem_cons.1 hy with hy | hy
    · subst hy
      by_cases hm : minp ≤ (ewmStep a st x).nobs
      · rw [if_pos hm]; exact hstep
      · rw [if_neg hm]; exact Or.inl rfl
    · exact ih (ewmStep a st x) hstep (fun z hz => hs z (List.mem_cons_of_mem x hz)) y hy

/-- Positional EWM evaluation when the state holds a value satisfying `P`
and every remaining input is a finite observation satisfying `P`: each
output from the `minp`-th observation on is a finite value satisfying
`P`. -/
theorem ewm_allobs (a : ℚ) (ha0 : 0 < a) (ha1 : a ≤ 1) (minp : Nat) (P : ℚ → Prop)
    (hP : ∀ w1 x y, 0 ≤ w1 → P x → P y → P ((w1 * x + a * y) / (w1 + a))) :
    ∀ (s : List V) (st : EwSt) (q0 : ℚ), st.avg = V.fin q0 → P q0 → 0 ≤ st.wt →
      (∀ j, j < s.length → ∃ q, P q ∧ s.getD j V.nan = V.fin q) →
      ∀ i, i < s.length → minp ≤ st.nobs + i + 1 →
        ∃ p, P p ∧ (ewmGo a minp st s).getD i V.nan = V.fin p := by
  intro s
  induction s with
  | nil => intro st q0 _ _ _ _ i hi _; cases hi
  | cons x xs ih =>
    intro st q0 havg hq0 hwt hmem i hi hminp
    obtain ⟨qx, hqx, hx⟩ := hmem 0 (by simp)
    rw [List.getD_cons_zero] at hx
    have hxnn : ¬ x.isNan = true := by rw [hx]; simp [V.isNan]
    have havgnn : ¬ st.avg.isNan = true := by rw [havg]; simp [V.isNan]
    have hden : st.wt * (1 - a) + a ≠ 0 := by nlinarith
    have hstep : ewmStep a st x =
        ⟨V.fin ((st.wt * (1 - a) * q0 + a * qx) / (st.wt * (1 - a) + a)), 1,
          st.nobs + 1⟩ := by
      unfold ewmStep
      rw [if_neg havgnn, if_neg hxnn, havg, hx]
      simp [V.mul, V.add, V.div, hden]
    have hPnew : P ((st.wt * (1 - a) * q0 + a * qx) / (st.wt * (1 - a) + a)) :=
      hP (st.wt * (1 - a)) q0 qx (mul_nonneg hwt (by linarith)) hq0 hqx
    cases i with
    | zero =>
      rw [ewmGo_cons, List.getD_cons_zero, hstep]
      rw [if_pos (show minp ≤ st.nobs + 1 by omega)]
      exact ⟨_, hPnew, rfl⟩
    | succ i' =>
      rw [ewmGo_cons, List.getD_cons_succ, hstep]
      refine ih ⟨V.fin _, 1, st.nobs + 1⟩ _ rfl hPnew (by norm_num) ?_ i'
        (by simpa using hi) (show minp ≤ st.nobs + 1 + i' + 1 by omega)
      intro j hj
      have := hmem (j + 1) (by simpa using hj)
      rwa [List.getD_cons_succ] at this

/-- Positional EWM evaluation for a series that starts with one NaN and
continues with finite observations satisfying `P`. -/
theorem ewm_nanstart (a : ℚ) (ha0 : 0 < a) (ha1 : a ≤ 1) (minp : Nat) (P : ℚ → Prop)
    (hP : ∀ w1 x y, 0 ≤ w1 → P x → P y → P ((w1 * x + a * y) / (w1 + a)))
    (s : List V) (hmem : ∀ j, j < s.length → ∃ q, P q ∧ s.getD j V.nan = V.fin q)
    (i : Nat) (hi : i < s.length) (hminp : minp ≤ i + 1) :
    ∃ p, P p ∧
      (ewmGo a minp ⟨V.nan, 1, 0⟩ (V.nan :: s)).getD (i + 1) V.nan = V.fin p := by
  rw [ewmGo_cons, show ewmStep a ⟨V.nan, 1, 0⟩ V.nan = ⟨V.nan, 1, 0⟩ from rfl,
    List.getD_cons_succ]
  cases s with
  | nil => cases hi
  | cons x xs =>
    obtain ⟨qx, hqx, hx⟩ := hmem 0 (by simp)
    rw [List.getD_cons_zero] at hx
    have hxnn : ¬ x.isNan = true := by rw [hx]; simp [V.isNan]
    have hstep2 : ewmStep a ⟨V.nan, 1, 0⟩ x = ⟨x, 1, 1⟩ := by
      unfold ewmStep
      rw [if_pos (by simp [V.isNan]), if_neg hxnn]
    cases i with
    | zero =>
      rw [ewmGo_cons, List.getD_cons_zero, hstep2]
      refine ⟨qx, hqx, ?_⟩
      rw [if_pos (by simpa using hminp), hx]
    | succ i' =>
      rw [ewmGo_cons, List.getD_cons_succ, hstep2]
      refine ewm_allobs a ha0 ha1 minp P hP xs ⟨x, 1, 1⟩ qx hx hqx (by norm_num) ?_ i'
        (by simpa using hi) (show minp ≤ 1 + i' + 1 by omega)
      intro j hj
      have := hmem (j + 1) (by simpa using hj)
      rwa [List.getD_cons_succ] at this

theorem rsiOf_zero_gain_pos_loss {l : ℚ} (hl : 0 < l) :
    rsiOf (V.fin 0) (V.fin l) = V.fin 0 := by
  unfold rsiOf
  rw [show V.rep0nan (V.fin l) = V.fin l from by simp [V.rep0nan, ne_of_gt hl]]
  rw [show V.div (V.fin 0) (V.fin l) = V.fin 0 from by
    simp [V.div, ne_of_gt hl]]
  rw [show V.add (V.fin 1) (V.fin 0) = V.fin 1 from by norm_num [V.add]]
  rw [show V.div (V.fin 100) (V.fin 1) = V.fin 100 from by norm_num [V.div]]
  rw [show V.sub (V.fin 100) (V.fin 100) = V.fin 0 from by
    rw [fin_sub_fin]; norm_num]

/-- The head of each diff-derived series is NaN, so the gain/loss series
of a nonempty price list splits as NaN followed by its tail. -/
theorem lossSeries_decomp (s : List V) (hlen : 0 < s.length) :
    lossSeries s = V.nan :: (lossSeries s).tail := by
  have hl : 0 < (lossSeries s).length := by
    unfold lossSeries diffV idxMap
    simpa using hlen
  cases hsl : lossSeries s with
  | nil => rw [hsl] at hl; cases hl
  | cons y ys =>
    have h0 : y = V.nan := by
      have : (lossSeries s).getD 0 V.nan = V.nan := by
        unfold lossSeries
        rw [getD_map_lt (by unfold diffV idxMap; simpa using hlen) V.nan V.nan]
        unfold diffV
        rw [idxMap_getD]
        rw [if_pos hlen]
        simp [V.neg, V.clip0]
      rw [hsl, List.getD_cons_zero] at this
      exact this
    rw [h0]
    rfl

theorem gainSeries_decomp (s : List V) (hlen : 0 < s.length) :
    gainSeries s = V.nan :: (gainSeries s).tail := by
  have hl : 0 < (gainSeries s).length := by
    unfold gainSeries diffV idxMap
    simpa using hlen
  cases hsl : gainSeries s with
  | nil => rw [hsl] at hl; cases hl
  | cons y ys =>
    have h0 : y = V.nan := by
      have : (gainSeries s).getD 0 V.nan = V.nan := by
        unfold gainSeries
        rw [getD_map_lt (by unfold diffV idxMap; simpa using hlen) V.nan V.nan]
        unfold diffV
        rw [idxMap_getD]
        rw [if_pos hlen]
        simp [V.clip0]
      rw [hsl, List.getD_cons_zero] at this
      exact this
    rw [h0]
    rfl

/-- C7 counterexample: on the strictly rising 16-observation series
`1, 2, ..., 16` (more than `n + 1 = 15` observations), `rsi_14` is
undefined at rows 14 and 15, not defined and close to 100 as the claim
states: the all-zero smoothed loss is replaced by NaN. -/
theorem C7_counterexample :
    rising16 = [V.fin 1, V.fin 2, V.fin 3, V.fin 4, V.fin 5, V.fin 6, V.fin 7, V.fin 8,
      V.fin 9, V.fin 10, V.fin 11, V.fin 12, V.fin 13, V.fin 14, V.fin 15, V.fin 16] ∧
      List.Chain' (· < ·) [(1 : ℚ), 2, 3, 4, 5, 6, 7, 8, 9, 10, 11, 12, 13, 14, 15, 16] ∧
      (rsiF 14 rising16).getD 14 V.nan = V.nan ∧
      (rsiF 14 rising16).getD 15 V.nan = V.nan := by
  refine ⟨by with_unfolding_all decide, by norm_num [List.chain'_cons],
    by with_unfolding_all decide, by with_unfolding_all decide⟩

/-- C7 (amended): over a strictly monotonically falling price series the
oscillator is defined from row `n` on and equals exactly `0`; but over a
strictly monotonically rising series — however long — it is undefined at
every row, because the smoothed average loss is identically zero and the
zero is replaced by NaN before the ratio is formed (it is not driven
toward 100). -/
theorem C7_monotone_rsi (n : Nat) (qs : List ℚ) (hn : 0 < n) :
    (List.Chain' (· < ·) qs →
      ∀ i, (rsiF n (qs.map V.fin)).getD i V.nan = V.nan) ∧
      (List.Chain' (· > ·) qs → ∀ i, n ≤ i → i < qs.length →
        (rsiF n (qs.map V.fin)).getD i V.nan = V.fin 0) := by
  have ha0 : 0 < 1 / (n : ℚ) := by
    have : (0 : ℚ) < (n : ℚ) := by exact_mod_cast hn
    positivity
  have ha1 : 1 / (n : ℚ) ≤ 1 := (alpha_bounds n).2
  constructor
  · intro hchain i
    by_cases hi : i < qs.length
    · rw [rsiF_getD n (qs.map V.fin) i (by simpa using hi)]
      have hloss : (avgLossF n (qs.map V.fin)).getD i V.nan = V.nan ∨
          (avgLossF n (qs.map V.fin)).getD i V.nan = V.fin 0 := by
        rcases getD_cases (avgLossF n (qs.map V.fin)) i V.nan with h | h
        · exact Or.inl h
        · unfold avgLossF ewmMean at h
          exact ewmGo_zeroline _ n (lossSeries (qs.map V.fin)) _ (Or.inl rfl)
            (lossSeries_rising qs hchain) _ h
      rcases hloss with h | h <;> rw [h]
      · exact rsiOf_nan_loss _
      · exact rsiOf_zero_loss _
    · rw [getD_oob (by rw [(causal_rsiF n).len]; simpa using not_lt.1 hi)]
  · intro hchain i hni hi
    have hi' : i < (qs.map V.fin).length := by simpa using hi
    have h1i : 1 ≤ i := le_trans hn hni
    have hlen0 : 0 < (qs.map V.fin).length := by omega
    have hslen : (lossSeries (qs.map V.fin)).length = qs.length := by
      unfold lossSeries diffV idxMap
      simp
    have hglen : (gainSeries (qs.map V.fin)).length = qs.length := by
      unfold gainSeries diffV idxMap
      simp
    -- the smoothed loss at i is a positive finite value
    have hlossmem : ∀ j, j < (lossSeries (qs.map V.fin)).tail.length →
        ∃ q, 0 < q ∧ (lossSeries (qs.map V.fin)).tail.getD j V.nan = V.fin q := by
      intro j hj
      rw [tail_getD]
      have hj1 : j + 1 < qs.length := by
        rw [List.length_tail, hslen] at hj
        omega
      have hgt : qs.getD (j + 1) 0 < qs.getD j 0 := by
        have := chain'_gt_getD qs hchain (j + 1) (by omega) (by omega)
        rwa [Nat.add_sub_cancel] at this
      refine ⟨qs.getD j 0 - qs.getD (j + 1) 0, sub_pos.2 hgt, ?_⟩
      unfold lossSeries
      rw [getD_map_lt (by rw [show (diffV (qs.map V.fin)).length =
          (qs.map V.fin).length from by unfold diffV idxMap; simp]; simpa using hj1)
        V.nan V.nan]
      unfold diffV
      rw [idxMap_getD, if_pos (by simpa using hj1)]
      rw [if_pos (by omega)]
      rw [atV_map_fin qs (j + 1) hj1, atV_map_fin qs (j + 1 - 1) (by omega), fin_sub_fin]
      rw [show j + 1 - 1 = j from by omega]
      rw [show V.neg (V.fin (qs.getD (j + 1) 0 - qs.getD j 0)) =
        V.fin (qs.getD j 0 - qs.getD (j + 1) 0) from by simp [V.neg, neg_sub]]
      rw [show V.clip0 (V.fin (qs.getD j 0 - qs.getD (j + 1) 0)) =
        V.fin (qs.getD j 0 - qs.getD (j + 1) 0) from by
          have hle : ¬ (qs.getD j 0 - qs.getD (j + 1) 0 ≤ 0) := by linarith
          simp only [V.clip0]
          rw [if_neg hle]]
    have hgainmem : ∀ j, j < (gainSeries (qs.map V.fin)).tail.length →
        ∃ q, q = 0 ∧ (gainSeries (qs.map V.fin)).tail.getD j V.nan = V.fin q := by
      intro j hj
      rw [tail_getD]
      have hj1 : j + 1 < qs.length := by
        rw [List.length_tail, hglen] at hj
        omega
      refine ⟨0, rfl, ?_⟩
      unfold gainSeries
      rw [getD_map_lt (by rw [show (diffV (qs.map V.fin)).length =
          (qs.map V.fin).length from by unfold diffV idxMap; simp]; simpa using hj1)
        V.nan V.nan]
      unfold diffV
      rw [idxMap_getD, if_pos (by simpa using hj1)]
      rw [if_pos (by omega)]
      rw [atV_map_fin qs (j + 1) hj1, atV_map_fin qs (j + 1 - 1) (by omega), fin_sub_fin]
      rw [show j + 1 - 1 = j from by omega]
      apply clip0_of_nonpos
      have := chain'_gt_getD qs hchain (j + 1) (by omega) (by omega)
      simp only [Nat.add_sub_cancel] at this
      linarith
    obtain ⟨p, hp, hlval⟩ := ewm_nanstart (1 / (n : ℚ)) ha0 ha1 n (fun q => 0 < q)
      (fun w1 x y hw1 hx hy => div_pos (by nlinarith) (by nlinarith))
      (lossSeries (qs.map V.fin)).tail hlossmem (i - 1)
      (by rw [List.length_tail, hslen]; omega) (by omega)
    obtain ⟨g, hg, hgval⟩ := ewm_nanstart (1 / (n : ℚ)) ha0 ha1 n (fun q => q = 0)
      (fun w1 x y hw1 hx hy => by rw [hx, hy]; simp)
      (gainSeries (qs.map V.fin)).tail hgainmem (i - 1)
      (by rw [List.length_tail, hglen]; omega) (by omega)
    rw [show V.nan :: (lossSeries (qs.map V.fin)).tail = lossSeries (qs.map V.fin) from
      (lossSeries_decomp (qs.map V.fin) hlen0).symm] at hlval
    rw [show V.nan :: (gainSeries (qs.map V.fin)).tail = gainSeries (qs.map V.fin) from
      (gainSeries_decomp (qs.map V.fin) hlen0).symm] at hgval
    rw [show i - 1 + 1 = i from by omega] at hlval hgval
    rw [rsiF_getD n (qs.map V.fin) i hi']
    unfold avgGainF avgLossF ewmMean
    rw [hgval, hlval, hg]
    exact rsiOf_zero_gain_pos_loss hp

/-- Witness for the amended C7: on the falling series `4, 3, 2, 1` with
window 2, the oscillator equals 0 at rows 2 and 3; hypotheses hold by
computation. -/
theorem C7_monotone_rsi_witness :
    (0 : Nat) < 2 ∧ List.Chain' (· > ·) [(4 : ℚ), 3, 2, 1] ∧
      (rsiF 2 ([(4 : ℚ), 3, 2, 1].map V.fin)).getD 2 V.nan = V.fin 0 ∧
      (rsiF 2 ([(4 : ℚ), 3, 2, 1].map V.fin)).getD 3 V.nan = V.fin 0 :=
  ⟨by decide, by norm_num [List.chain'_cons],
   (C7_monotone_rsi 2 [(4 : ℚ), 3, 2, 1] (by decide)).2 (by norm_num [List.chain'_cons])
     2 (by decide) (by decide),
   (C7_monotone_rsi 2 [(4 : ℚ), 3, 2, 1] (by decide)).2 (by norm_num [List.chain'_cons])
     3 (by decide) (by decide)⟩

/-! ## Value-shape analysis of the feature columns: C4 -/

theorem noInf_of_finV {v : V} (hv : finV v) : v.noInf = true := by
  rcases hv with h | ⟨q, h⟩ <;> subst h <;> rfl

theorem posV_finV {v : V} (hv : posV v) : finV v := by
  rcases hv with h | ⟨q, _, h⟩
  · exact Or.inl h
  · exact Or.inr ⟨q, h⟩

theorem div_posV {a b : V} (ha : posV a) (hb : posV b) : finV (V.div a b) := by
  rcases ha with h | ⟨p, hp, h⟩ <;> subst h
  · exact Or.inl (by cases b <;> rfl)
  · rcases hb with h | ⟨q, hq, h⟩ <;> subst h
    · exact Or.inl rfl
    · exact Or.inr ⟨p / q, by simp [V.div, ne_of_gt hq]⟩

theorem sub_finV {a b : V} (ha : finV a) (hb : finV b) : finV (V.sub a b) := by
  rcases ha with h | ⟨p, h⟩ <;> subst h
  · exact Or.inl (by cases b <;> rfl)
  · rcases hb with h | ⟨q, h⟩ <;> subst h
    · exact Or.inl rfl
    · exact Or.inr ⟨p - q, fin_sub_fin p q⟩

theorem vlog_posV (lg : ℚ → ℚ) {v : V} (hv : posV v) : finV (vlog lg v) := by
  rcases hv with h | ⟨q, hq, h⟩ <;> subst h
  · exact Or.inl rfl
  · exact Or.inr ⟨lg q, by simp [vlog, hq]⟩

theorem vlog_rep0_noInf (lg : ℚ → ℚ) {v : V} (hv : v.noInf = true) :
    finV (vlog lg (V.rep0nan v)) := by
  cases v with
  | nan => exact Or.inl rfl
  | pinf => cases hv
  | ninf => cases hv
  | fin q =>
    by_cases h0 : q = 0
    · subst h0
      exact Or.inl (by simp [V.rep0nan, vlog])
    · rcases lt_trichotomy q 0 with hq | hq | hq
      · refine Or.inl ?_
        rw [show V.rep0nan (V.fin q) = V.fin q from by simp [V.rep0nan, h0]]
        simp [vlog, not_lt.2 (le_of_lt hq), ne_of_lt hq]
      · exact absurd hq h0
      · refine Or.inr ⟨lg q, ?_⟩
        rw [show V.rep0nan (V.fin q) = V.fin q from by simp [V.rep0nan, h0]]
        simp [vlog, hq]

theorem deinf_noInf (v : V) : (V.deinf v).noInf = true := by
  cases v <;> rfl

theorem vsqrt_finV (sq : ℚ → ℚ) {v : V} (hv : finV v) : finV (vsqrt sq v) := by
  rcases hv with h | ⟨q, h⟩ <;> subst h
  · exact Or.inl rfl
  · by_cases hq : q < 0
    · exact Or.inl (by simp [vsqrt, hq])
    · exact Or.inr ⟨sq q, by simp [vsqrt, hq]⟩

theorem fin_add_fin (a b : ℚ) : V.add (V.fin a) (V.fin b) = V.fin (a + b) := by
  simp [V.add]

theorem fin_mul_fin (a b : ℚ) : V.mul (V.fin a) (V.fin b) = V.fin (a * b) := by
  simp [V.mul]

theorem fin_div_fin (a : ℚ) {b : ℚ} (hb : b ≠ 0) :
    V.div (V.fin a) (V.fin b) = V.fin (a / b) := by
  simp [V.div, hb]

theorem allFin_decomp {l : List V} (h : ∀ x ∈ l, ∃ q, x = V.fin q) :
    ∃ qs : List ℚ, l = qs.map V.fin := by
  induction l with
  | nil => exact ⟨[], rfl⟩
  | cons x xs ih =>
    obtain ⟨q, hq⟩ := h x (List.mem_cons_self x xs)
    obtain ⟨qs, hqs⟩ := ih (fun z hz => h z (List.mem_cons_of_mem x hz))
    exact ⟨q :: qs, by rw [hq, hqs]; rfl⟩

theorem foldl_add_fin (qs : List ℚ) (c : ℚ) :
    (qs.map V.fin).foldl V.add (V.fin c) = V.fin (c + qs.sum) := by
  induction qs generalizing c with
  | nil => simp
  | cons q rest ih =>
    simp only [List.map_cons, List.foldl_cons, fin_add_fin, ih, List.sum_cons]
    ring_nf

theorem vsum_map_fin (qs : List ℚ) : vsum (qs.map V.fin) = V.fin qs.sum := by
  unfold vsum
  rw [foldl_add_fin]
  norm_num

theorem mem_winAt {w i : Nat} {s : List V} {x : V} (h : x ∈ winAt w s i) : x ∈ s := by
  unfold winAt at h
  exact List.mem_of_mem_drop (List.mem_of_mem_take h)

theorem winAt_length {w i : Nat} {s : List V} (hw : w ≤ i + 1) (hi : i < s.length) :
    (winAt w s i).length = w := by
  unfold winAt
  rw [List.length_take, List.length_drop]
  omega

theorem winAt_getD_last {w i : Nat} {s : List V} (hw : w ≤ i + 1) (hw1 : 1 ≤ w)
    (_hi : i < s.length) : (winAt w s i).getD (w - 1) V.nan = s.getD i V.nan := by
  unfold winAt
  rw [getD_take (by omega)]
  rw [List.getD_eq_getElem?_getD, List.getElem?_drop, ← List.getD_eq_getElem?_getD]
  congr 1
  omega

theorem sum_sq_zero {l : List ℚ} (hnn : ∀ x ∈ l, 0 ≤ x) (hz : l.sum = 0) :
    ∀ x ∈ l, x = 0 := by
  induction l with
  | nil => intro x hx; cases hx
  | cons y ys ih =>
    rw [List.sum_cons] at hz
    have hy : 0 ≤ y := hnn y (List.mem_cons_self y ys)
    have hys : 0 ≤ ys.sum := List.sum_nonneg (fun x hx => hnn x (List.mem_cons_of_mem y hx))
    have hy0 : y = 0 := by linarith
    intro x hx
    rcases List.mem_cons.1 hx with hx | hx
    · rw [hx, hy0]
    · exact ih (fun z hz => hnn z (List.mem_cons_of_mem y hz)) (by linarith) x hx

/-- A gate-passing rolling window over a NaN-or-finite series consists of
finite values. -/
theorem winAt_allFin {w i : Nat} {s : List V} (hfin : ∀ x ∈ s, finV x)
    (hall : (winAt w s i).all (fun x => !x.isNan) = true) :
    ∀ x ∈ winAt w s i, ∃ q, x = V.fin q := by
  intro x hx
  have hnn := List.all_eq_true.1 hall x hx
  rcases hfin x (mem_winAt hx) with h | ⟨q, h⟩
  · rw [h] at hnn; cases hnn
  · exact ⟨q, h⟩

theorem rollMean_posV {w : Nat} {s : List V} (hpos : ∀ x ∈ s, posV x) (i : Nat) :
    posV ((rollMean w s).getD i V.nan) := by
  unfold rollMean
  rw [idxMap_getD]
  by_cases hi : i < s.length
  · rw [if_pos hi]
    by_cases hgate : w ≤ i + 1 ∧ (winAt w s i).all (fun x => !x.isNan) = true
    · rw [if_pos hgate]
      have hfin := winAt_allFin (fun x hx => posV_finV (hpos x hx)) hgate.2
      obtain ⟨qs, hqs⟩ := allFin_decomp hfin
      rw [hqs, vsum_map_fin]
      cases hw0 : w with
      | zero =>
        have : qs = [] := by
          have hlw := winAt_length hgate.1 hi
          rw [hqs, List.length_map, hw0] at hlw
          exact List.length_eq_zero.1 hlw
        subst this
        refine Or.inl ?_
        simp [V.div]
      | succ w' =>
        have hlen : qs.length = w := by
          have hlw := winAt_length hgate.1 hi
          rwa [hqs, List.length_map] at hlw
        have hposq : ∀ q ∈ qs, 0 < q := by
          intro q hq
          have hmem : V.fin q ∈ winAt w s i := by
            rw [hqs]; exact List.mem_map.2 ⟨q, hq, rfl⟩
          rcases hpos _ (mem_winAt hmem) with h | ⟨p, hp, h⟩
          · cases h
          · injection h with e; rwa [← e] at hp
        have hsum : 0 < qs.sum := by
          have hne : qs ≠ [] := by
            intro hh
            rw [hh] at hlen
            simp [hw0] at hlen
          cases qs with
          | nil => exact absurd rfl hne
          | cons a as =>
            have ha := hposq a (List.mem_cons_self a as)
            have has : 0 ≤ as.sum :=
              List.sum_nonneg (fun x hx => le_of_lt (hposq x (List.mem_cons_of_mem a hx)))
            rw [List.sum_cons]
            linarith
        have hwq : ((w : ℚ)) ≠ 0 := by
          rw [hw0]; exact_mod_cast Nat.succ_ne_zero w'
        rw [← hw0, fin_div_fin _ hwq]
        refine Or.inr ⟨qs.sum / (w : ℚ), ?_, rfl⟩
        apply div_pos hsum
        rw [hw0]
        exact_mod_cast Nat.succ_pos w'
    · rw [if_neg hgate]
      exact Or.inl rfl
  · rw [if_neg hi]
    exact Or.inl rfl

theorem rollMean_finV {w : Nat} {s : List V} (hfin : ∀ x ∈ s, finV x) (i : Nat) :
    finV ((rollMean w s).getD i V.nan) := by
  unfold rollMean
  rw [idxMap_getD]
  by_cases hi : i < s.length
  · rw [if_pos hi]
    by_cases hgate : w ≤ i + 1 ∧ (winAt w s i).all (fun x => !x.isNan) = true
    · rw [if_pos hgate]
      obtain ⟨qs, hqs⟩ := allFin_decomp (winAt_allFin hfin hgate.2)
      rw [hqs, vsum_map_fin]
      by_cases hwq : ((w : ℚ)) = 0
      · have hw0 : w = 0 := by exact_mod_cast hwq
        have hqs0 : qs = [] := by
          have hlw := winAt_length hgate.1 hi
          rw [hqs, List.length_map, hw0] at hlw
          exact List.length_eq_zero.1 hlw
        subst hqs0
        refine Or.inl ?_
        simp [V.div, hwq]
      · rw [fin_div_fin _ hwq]
        exact Or.inr ⟨_, rfl⟩
    · rw [if_neg hgate]
      exact Or.inl rfl
  · rw [if_neg hi]
    exact Or.inl rfl

/-- The sample variance term of `rollStd` over an all-finite window, as an
exact rational. -/
theorem rollStd_getD_eq {sq : ℚ → ℚ} {w : Nat} {s : List V} (i : Nat)
    (hi : i < s.length)
    (hgate : w ≤ i + 1 ∧ (winAt w s i).all (fun x => !x.isNan) = true)
    {qs : List ℚ} (hqs : winAt w s i = qs.map V.fin) (hwq : ((w : ℚ)) ≠ 0) :
    (rollStd sq w s).getD i V.nan =
      vsqrt sq (V.div
        (V.fin ((qs.map (fun q => (q - qs.sum / (w : ℚ)) * (q - qs.sum / (w : ℚ)))).sum))
        (V.fin ((w - 1 : Nat) : ℚ))) := by
  unfold rollStd
  rw [idxMap_getD, if_pos hi, if_pos hgate]
  congr 1
  congr 1
  rw [hqs, vsum_map_fin, fin_div_fin _ hwq, List.map_map]
  rw [show ((fun x => V.mul (V.sub x (V.fin (qs.sum / (w : ℚ))))
      (V.sub x (V.fin (qs.sum / (w : ℚ))))) ∘ V.fin) =
      (V.fin ∘ fun q => (q - qs.sum / (w : ℚ)) * (q - qs.sum / (w : ℚ))) from by
    funext q
    simp [Function.comp, fin_sub_fin, fin_mul_fin]]
  rw [← List.map_map, vsum_map_fin]

theorem rollStd_finV (sq : ℚ → ℚ) {w : Nat} {s : List V} (hfin : ∀ x ∈ s, finV x)
    (i : Nat) : finV ((rollStd sq w s).getD i V.nan) := by
  by_cases hi : i < s.length
  · by_cases hgate : w ≤ i + 1 ∧ (winAt w s i).all (fun x => !x.isNan) = true
    · obtain ⟨qs, hqs⟩ := allFin_decomp (winAt_allFin hfin hgate.2)
      by_cases hwq : ((w : ℚ)) = 0
      · have hw0 : w = 0 := by exact_mod_cast hwq
        have hqs0 : qs = [] := by
          have hlw := winAt_length hgate.1 hi
          rw [hqs, List.length_map, hw0] at hlw
          exact List.length_eq_zero.1 hlw
        subst hw0
        unfold rollStd
        rw [idxMap_getD, if_pos hi, if_pos hgate]
        apply vsqrt_finV
        rw [hqs, hqs0]
        refine Or.inl ?_
        norm_num [vsum, V.div]
      · rw [rollStd_getD_eq i hi hgate hqs hwq]
        apply vsqrt_finV
        by_cases hw1 : ((w - 1 : Nat) : ℚ) = 0
        · -- window of size ≤ 1: the single deviation is zero, so 0/0 = NaN
          have hwge : w = 1 := by
            have hw0 : (w : ℚ) ≠ 0 := hwq
            have : w ≠ 0 := by
              intro hh; rw [hh] at hw0; exact hw0 (by norm_num)
            have : w - 1 = 0 := by exact_mod_cast Nat.cast_eq_zero.1 hw1
            omega
          have hlen : qs.length = 1 := by
            have hlw := winAt_length hgate.1 hi
            rw [hqs, List.length_map] at hlw
            rw [hlw, hwge]
          obtain ⟨q, hq⟩ := List.length_eq_one.1 hlen
          subst hq
          refine Or.inl ?_
          rw [show (([q].map (fun p => (p - [q].sum / (w : ℚ)) *
              (p - [q].sum / (w : ℚ))))).sum = 0 from by simp [hwge]]
          simp [V.div, hw1]
        · rw [fin_div_fin _ hw1]
          exact Or.inr ⟨_, rfl⟩
    · unfold rollStd
      rw [idxMap_getD, if_pos hi, if_neg hgate]
      exact Or.inl rfl
  · unfold rollStd
    rw [idxMap_getD, if_neg hi]
    exact Or.inl rfl

/-- If the rolling standard deviation is exactly zero then the window is
constant: the rolling mean and the series value at the window's right
edge agree on a common finite value. -/
theorem rollStd_zero {sq : ℚ → ℚ} (hsq : ∀ q : ℚ, 0 ≤ q → (sq q = 0 ↔ q = 0)) {w : Nat}
    (hw : 2 ≤ w) {s : List V} (hfin : ∀ x ∈ s, finV x) (i : Nat)
    (hzero : (rollStd sq w s).getD i V.nan = V.fin 0) :
    ∃ μ, (rollMean w s).getD i V.nan = V.fin μ ∧ s.getD i V.nan = V.fin μ := by
  by_cases hi : i < s.length
  · by_cases hgate : w ≤ i + 1 ∧ (winAt w s i).all (fun x => !x.isNan) = true
    · obtain ⟨qs, hqs⟩ := allFin_decomp (winAt_allFin hfin hgate.2)
      have hwq : ((w : ℚ)) ≠ 0 := by
        have : (0 : ℚ) < (w : ℚ) := by exact_mod_cast (by omega : 0 < w)
        exact ne_of_gt this
      have hw1 : ((w - 1 : Nat) : ℚ) ≠ 0 := by
        have : (0 : ℚ) < ((w - 1 : Nat) : ℚ) := by exact_mod_cast (by omega : 0 < w - 1)
        exact ne_of_gt this
      rw [rollStd_getD_eq i hi hgate hqs hwq, fin_div_fin _ hw1] at hzero
      set μ := qs.sum / (w : ℚ) with hμ
      set S := (qs.map (fun q => (q - μ) * (q - μ))).sum with hS
      have hSnn : 0 ≤ S := by
        apply List.sum_nonneg
        intro x hx
        rcases List.mem_map.1 hx with ⟨q, _, rfl⟩
        exact mul_self_nonneg _
      have hvar : 0 ≤ S / ((w - 1 : Nat) : ℚ) := by
        apply div_nonneg hSnn
        exact_mod_cast Nat.zero_le _
      have hval : vsqrt sq (V.fin (S / ((w - 1 : Nat) : ℚ))) = V.fin 0 := hzero
      rw [vsqrt, if_neg (not_lt.2 hvar)] at hval
      injection hval with he
      have hvar0 : S / ((w - 1 : Nat) : ℚ) = 0 := ((hsq _ hvar).1 he)
      have hS0 : S = 0 := by
        rcases div_eq_zero_iff.1 hvar0 with h | h
        · exact h
        · exact absurd h hw1
      have hall0 : ∀ q ∈ qs, q = μ := by
        intro q hq
        have := sum_sq_zero (l := qs.map (fun q => (q - μ) * (q - μ)))
          (fun x hx => by
            rcases List.mem_map.1 hx with ⟨p, _, rfl⟩
            exact mul_self_nonneg _) hS0 ((q - μ) * (q - μ))
          (List.mem_map.2 ⟨q, hq, rfl⟩)
        have := mul_self_eq_zero.1 this
        linarith
      refine ⟨μ, ?_, ?_⟩
      · unfold rollMean
        rw [idxMap_getD, if_pos hi, if_pos hgate, hqs, vsum_map_fin, fin_div_fin _ hwq]
      · have hlast : (winAt w s i).getD (w - 1) V.nan = s.getD i V.nan :=
          winAt_getD_last hgate.1 (by omega) hi
        have hlen : qs.length = w := by
          have := winAt_length hgate.1 hi
          rwa [hqs, List.length_map] at this
        have hw1lt : w - 1 < qs.length := by omega
        rw [hqs] at hlast
        rw [show ((qs.map V.fin).getD (w - 1) V.nan) = V.fin (qs.getD (w - 1) 0) from by
          rw [List.getD_eq_getElem _ _ (by rw [List.length_map]; omega), List.getElem_map,
            List.getD_eq_getElem _ _ hw1lt]] at hlast
        rw [← hlast]
        congr 1
        apply hall0
        rw [List.getD_eq_getElem _ _ hw1lt]
        exact List.getElem_mem hw1lt
    · unfold rollStd at hzero
      rw [idxMap_getD, if_pos hi, if_neg hgate] at hzero
      cases hzero
  · unfold rollStd at hzero
    rw [idxMap_getD, if_neg hi] at hzero
    cases hzero

theorem mem_getD_pred {Q : V → Prop} {l : List V} (h : ∀ j, Q (l.getD j V.nan)) :
    ∀ x ∈ l, Q x := by
  intro x hx
  rcases List.mem_iff_getElem.1 hx with ⟨i, hi, rfl⟩
  have hq := h i
  rwa [List.getD_eq_getElem _ _ hi] at hq

theorem atV_posV {s : List V} (hs : ∀ x ∈ s, posV x) (i : Nat) : posV (atV s i) := by
  unfold atV
  rcases getD_cases s i V.nan with h | h
  · rw [h]; exact Or.inl rfl
  · exact hs _ h

theorem pctChange_getD_finV {k : Nat} {s : List V} (hs : ∀ x ∈ s, posV x) (i : Nat) :
    finV ((pctChange k s).getD i V.nan) := by
  unfold pctChange
  rw [idxMap_getD]
  by_cases hi : i < s.length
  · rw [if_pos hi]
    by_cases hk : k ≤ i
    · rw [if_pos hk]
      exact sub_finV (div_posV (atV_posV hs i) (atV_posV hs (i - k))) (Or.inr ⟨1, rfl⟩)
    · rw [if_neg hk]; exact Or.inl rfl
  · rw [if_neg hi]; exact Or.inl rfl

theorem shiftPos_getD_posV {k : Nat} {s : List V} (hs : ∀ x ∈ s, posV x) (i : Nat) :
    posV ((shiftPos k s).getD i V.nan) := by
  unfold shiftPos
  rw [idxMap_getD]
  by_cases hi : i < s.length
  · rw [if_pos hi]
    by_cases hk : k ≤ i
    · rw [if_pos hk]; exact atV_posV hs _
    · rw [if_neg hk]; exact Or.inl rfl
  · rw [if_neg hi]; exact Or.inl rfl

theorem shiftNeg_getD_posV {h : Nat} {s : List V} (hs : ∀ x ∈ s, posV x) (i : Nat) :
    posV ((shiftNeg h s).getD i V.nan) := by
  unfold shiftNeg
  rw [idxMap_getD]
  by_cases hi : i < s.length
  · rw [if_pos hi]
    by_cases hk : i + h < s.length
    · rw [if_pos hk]; exact atV_posV hs _
    · rw [if_neg hk]; exact Or.inl rfl
  · rw [if_neg hi]; exact Or.inl rfl

/-- Transport of a value predicate through `groupby(ticker).transform`:
if every input value satisfies `R` and `f` sends `R`-valued series to
`Q`-valued outputs, every output cell satisfies `Q`. -/
theorem gbtOn_getD_pred {α : Type _} (tkOf : α → String) (f : List V → List V)
    (t : List α) (vs : List V) {R Q : V → Prop} (hQnan : Q V.nan)
    (hvs : ∀ x ∈ vs, R x)
    (hf : ∀ s : List V, (∀ x ∈ s, R x) → ∀ i, Q ((f s).getD i V.nan)) (j : Nat) :
    Q ((gbtOn tkOf f t vs).getD j V.nan) := by
  by_cases hj : j < t.length
  · rw [gbtOn_getD tkOf f t vs j hj]
    exact hf _ (fun x hx => hvs x (mem_maskBy hx)) _
  · rw [getD_oob (by rw [gbtOn_length]; omega)]
    exact hQnan

theorem div_finV_ne_zero {a b : V} (ha : finV a) (hb : finV b) (hb0 : b ≠ V.fin 0) :
    (V.div a b).noInf = true := by
  rcases ha with h | ⟨p, h⟩ <;> subst h
  · cases b <;> rfl
  · rcases hb with h | ⟨q, h⟩ <;> subst h
    · rfl
    · have hq : q ≠ 0 := fun hh => hb0 (by rw [hh])
      rw [fin_div_fin _ hq]; rfl

/-! ### Shape of the normalized table -/

theorem toNum_finV (rv : RawVal) : finV rv.toNum := by
  cases rv with
  | na => exact Or.inl rfl
  | num q => exact Or.inr ⟨q, rfl⟩
  | text o =>
    cases o with
    | none => exact Or.inl rfl
    | some q => exact Or.inr ⟨q, rfl⟩

theorem adjCloseOf_posV {ac cl : V} (hac : finV ac) (hcl : finV cl) :
    posV (adjCloseOf ac cl) := by
  have key : ∀ v : V, finV v → posV (if V.le v (V.fin 0) then V.nan else v) := by
    intro v hv
    rcases hv with h | ⟨q, h⟩ <;> subst h
    · exact Or.inl (by simp [V.le])
    · by_cases hq : q ≤ 0
      · exact Or.inl (by simp [V.le, hq])
      · exact Or.inr ⟨q, lt_of_not_le hq, by simp [V.le, hq]⟩
  unfold adjCloseOf
  rcases hac with h | ⟨q, h⟩ <;> subst h
  · simpa [V.isNan] using key cl hcl
  · simpa [V.isNan] using key (V.fin q) (Or.inr ⟨q, rfl⟩)

/-- Every row of the normalized table has a NaN-or-positive `adj_close`
and a non-infinite `volume`. -/
theorem load_row_invariants {raws : List RawRow} {r : Row}
    (hr : r ∈ load_long_dataset raws) :
    posV r.adj_close ∧ r.volume.noInf = true := by
  rcases mem_load hr with ⟨rr, _, _, rfl⟩
  exact ⟨adjCloseOf_posV (toNum_finV _) (toNum_finV _), noInf_of_finV (toNum_finV _)⟩

/-! ### Value shape of each feature column -/

theorem adjColumn_posV {t : List Row} (hadj : ∀ r ∈ t, posV r.adj_close) :
    ∀ x ∈ t.map Row.adj_close, posV x := by
  intro x hx
  rcases List.mem_map.1 hx with ⟨r, hr, rfl⟩
  exact hadj r hr

theorem colShift1_length (t : List Row) : (colShift1 t).length = t.length :=
  gbtOn_length _ _ _ _

theorem colMa_length (w : Nat) (t : List Row) : (colMa w t).length = t.length :=
  gbtOn_length _ _ _ _

theorem colLogvol_length (lg : ℚ → ℚ) (t : List Row) : (colLogvol lg t).length = t.length :=
  List.length_map _ _

theorem colVolMu_length (lg : ℚ → ℚ) (t : List Row) : (colVolMu lg t).length = t.length :=
  gbtOn_length _ _ _ _

theorem colVolSd_length (lg sq : ℚ → ℚ) (t : List Row) :
    (colVolSd lg sq t).length = t.length :=
  gbtOn_length _ _ _ _

theorem colRet_getD_finV {t : List Row} (hadj : ∀ r ∈ t, posV r.adj_close) (j : Nat) :
    finV ((colRet t).getD j V.nan) := by
  unfold colRet
  exact gbtOn_getD_pred _ _ _ _ (Or.inl rfl) (adjColumn_posV hadj)
    (fun s hs i => pctChange_getD_finV hs i) j

theorem colShift1_getD_posV {t : List Row} (hadj : ∀ r ∈ t, posV r.adj_close) (j : Nat) :
    posV ((colShift1 t).getD j V.nan) := by
  unfold colShift1
  exact gbtOn_getD_pred _ _ _ _ (Or.inl rfl) (adjColumn_posV hadj)
    (fun s hs i => shiftPos_getD_posV hs i) j

theorem colLogret_getD_finV (lg : ℚ → ℚ) {t : List Row}
    (hadj : ∀ r ∈ t, posV r.adj_close) (j : Nat) :
    finV ((colLogret lg t).getD j V.nan) := by
  unfold colLogret
  by_cases hj : j < t.length
  · have h1 : j < ((t.map Row.adj_close).map (vlog lg)).length := by
      rw [List.length_map, List.length_map]; exact hj
    have h2 : j < ((colShift1 t).map (vlog lg)).length := by
      rw [List.length_map, colShift1_length]; exact hj
    rw [zipWith_getD _ _ _ j h1 h2]
    apply sub_finV
    · rw [List.get_eq_getElem, List.getElem_map]
      apply vlog_posV lg
      exact adjColumn_posV hadj _ (List.getElem_mem _)
    · rw [List.get_eq_getElem, List.getElem_map]
      apply vlog_posV lg
      have hb : j < (colShift1 t).length := by rw [colShift1_length]; exact hj
      have hp := colShift1_getD_posV hadj j
      rwa [List.getD_eq_getElem _ _ hb] at hp
  · rw [getD_oob]
    · exact Or.inl rfl
    · rw [List.length_zipWith, List.length_map, List.length_map, List.length_map,
        colShift1_length, Nat.min_self]
      omega

theorem colLogret_mem_finV (lg : ℚ → ℚ) {t : List Row}
    (hadj : ∀ r ∈ t, posV r.adj_close) : ∀ x ∈ colLogret lg t, finV x :=
  mem_getD_pred (colLogret_getD_finV lg hadj)

theorem colMom_getD_noInf (w : Nat) (t : List Row) (j : Nat) :
    ((colMom w t).getD j V.nan).noInf = true := by
  unfold colMom
  rcases getD_cases ((gbtOn Row.ticker (pctChange w) t (t.map Row.adj_close)).map V.deinf)
      j V.nan with h | h
  · rw [h]; rfl
  · rcases List.mem_map.1 h with ⟨y, _, hy⟩
    rw [← hy]
    exact deinf_noInf y

theorem colMa_getD_posV {t : List Row} (hadj : ∀ r ∈ t, posV r.adj_close) (w j : Nat) :
    posV ((colMa w t).getD j V.nan) := by
  unfold colMa
  exact gbtOn_getD_pred _ _ _ _ (Or.inl rfl) (adjColumn_posV hadj)
    (fun s hs i => rollMean_posV hs i) j

theorem colPma_getD_finV {t : List Row} (hadj : ∀ r ∈ t, posV r.adj_close) (w j : Nat) :
    finV ((colPma w t).getD j V.nan) := by
  unfold colPma
  by_cases hj : j < t.length
  · have h1 : j < (t.map Row.adj_close).length := by rw [List.length_map]; exact hj
    have h2 : j < (colMa w t).length := by rw [colMa_length]; exact hj
    rw [zipWith_getD _ _ _ j h1 h2]
    apply sub_finV _ (Or.inr ⟨1, rfl⟩)
    apply div_posV
    · rw [List.get_eq_getElem, List.getElem_map]
      exact hadj _ (List.getElem_mem _)
    · have hp := colMa_getD_posV hadj w j
      rwa [get_eq_getD _ _ h2 V.nan]
  · rw [getD_oob]
    · exact Or.inl rfl
    · rw [List.length_zipWith, List.length_map, colMa_length, Nat.min_self]
      omega

theorem colVol_getD_finV (lg sq : ℚ → ℚ) {t : List Row}
    (hadj : ∀ r ∈ t, posV r.adj_close) (w j : Nat) :
    finV ((colVol lg sq w t).getD j V.nan) := by
  unfold colVol
  exact gbtOn_getD_pred _ _ _ _ (Or.inl rfl) (colLogret_mem_finV lg hadj)
    (fun s hs i => rollStd_finV sq hs i) j

theorem colLogvol_mem_finV (lg : ℚ → ℚ) {t : List Row}
    (hvol : ∀ r ∈ t, r.volume.noInf = true) : ∀ x ∈ colLogvol lg t, finV x := by
  intro x hx
  rcases List.mem_map.1 hx with ⟨r, hr, rfl⟩
  exact vlog_rep0_noInf lg (hvol r hr)

theorem colLogvol_getD_finV (lg : ℚ → ℚ) {t : List Row}
    (hvol : ∀ r ∈ t, r.volume.noInf = true) (j : Nat) :
    finV ((colLogvol lg t).getD j V.nan) := by
  rcases getD_cases (colLogvol lg t) j V.nan with h | h
  · rw [h]; exact Or.inl rfl
  · exact colLogvol_mem_finV lg hvol _ h

theorem colVolMu_getD_finV (lg : ℚ → ℚ) {t : List Row}
    (hvol : ∀ r ∈ t, r.volume.noInf = true) (j : Nat) :
    finV ((colVolMu lg t).getD j V.nan) := by
  unfold colVolMu
  exact gbtOn_getD_pred _ _ _ _ (Or.inl rfl) (colLogvol_mem_finV lg hvol)
    (fun s hs i => rollMean_finV hs i) j

theorem colVolSd_getD_finV (lg sq : ℚ → ℚ) {t : List Row}
    (hvol : ∀ r ∈ t, r.volume.noInf = true) (j : Nat) :
    finV ((colVolSd lg sq t).getD j V.nan) := by
  unfold colVolSd
  exact gbtOn_getD_pred _ _ _ _ (Or.inl rfl) (colLogvol_mem_finV lg hvol)
    (fun s hs i => rollStd_finV sq hs i) j

theorem colVolMu_getD (lg : ℚ → ℚ) (t : List Row) (j : Nat) (hj : j < t.length) :
    (colVolMu lg t).getD j V.nan =
      (rollMean 63 (tkMask Row.ticker (Row.ticker (t.get ⟨j, hj⟩)) t
        (colLogvol lg t))).getD (rankAt Row.ticker t j (Row.ticker (t.get ⟨j, hj⟩))) V.nan := by
  unfold colVolMu
  exact gbtOn_getD _ _ _ _ j hj V.nan

theorem colVolSd_getD (lg sq : ℚ → ℚ) (t : List Row) (j : Nat) (hj : j < t.length) :
    (colVolSd lg sq t).getD j V.nan =
      (rollStd sq 63 (tkMask Row.ticker (Row.ticker (t.get ⟨j, hj⟩)) t
        (colLogvol lg t))).getD (rankAt Row.ticker t j (Row.ticker (t.get ⟨j, hj⟩))) V.nan := by
  unfold colVolSd
  exact gbtOn_getD _ _ _ _ j hj V.nan

/-- The volume z-score never holds an infinity: when the rolling standard
deviation is a nonzero finite value the quotient is finite, and when it
is exactly zero the window is constant, so the numerator is zero as well
and `0 / 0` is undefined rather than infinite. -/
theorem colLogvolZ_getD_noInf (lg sq : ℚ → ℚ)
    (hsq : ∀ q : ℚ, 0 ≤ q → (sq q = 0 ↔ q = 0)) {t : List Row}
    (hvol : ∀ r ∈ t, r.volume.noInf = true) (j : Nat) :
    ((colLogvolZ lg sq t).getD j V.nan).noInf = true := by
  unfold colLogvolZ
  by_cases hj : j < t.length
  · have hlv : j < (colLogvol lg t).length := by rw [colLogvol_length]; exact hj
    have hmu : j < (colVolMu lg t).length := by rw [colVolMu_length]; exact hj
    have hsd : j < (colVolSd lg sq t).length := by rw [colVolSd_length]; exact hj
    have hnum : j < (List.zipWith V.sub (colLogvol lg t) (colVolMu lg t)).length := by
      rw [List.length_zipWith, colLogvol_length, colVolMu_length, Nat.min_self]; exact hj
    rw [zipWith_getD _ _ _ j hnum hsd, get_eq_getD _ _ hnum V.nan, get_eq_getD _ _ hsd V.nan,
      zipWith_getD _ _ _ j hlv hmu, get_eq_getD _ _ hlv V.nan, get_eq_getD _ _ hmu V.nan]
    by_cases hz : (colVolSd lg sq t).getD j V.nan = V.fin 0
    · have hmask : ∀ x ∈ tkMask Row.ticker (Row.ticker (t.get ⟨j, hj⟩)) t (colLogvol lg t),
          finV x := fun x hx => colLogvol_mem_finV lg hvol x (mem_maskBy hx)
      have hz' := hz
      rw [colVolSd_getD lg sq t j hj] at hz'
      obtain ⟨μ, hmean, hval⟩ := rollStd_zero hsq (by norm_num) hmask _ hz'
      have hmu' : (colVolMu lg t).getD j V.nan = V.fin μ :=
        (colVolMu_getD lg t j hj).trans hmean
      have hrk : (tkMask Row.ticker (Row.ticker (t.get ⟨j, hj⟩)) t
          (colLogvol lg t)).getD (rankAt Row.ticker t j (Row.ticker (t.get ⟨j, hj⟩))) V.nan =
          (colLogvol lg t).getD j V.nan :=
        maskBy_getD_rank (fun x => Row.ticker x == Row.ticker (t.get ⟨j, hj⟩)) t
          (colLogvol lg t) j V.nan (colLogvol_length lg t) hj (by simp)
      have hlv' : (colLogvol lg t).getD j V.nan = V.fin μ := hrk.symm.trans hval
      rw [hlv', hmu', hz, fin_sub_fin, sub_self]
      norm_num [V.div, V.noInf]
    · exact div_finV_ne_zero
        (sub_finV (colLogvol_getD_finV lg hvol j) (colVolMu_getD_finV lg hvol j))
        (colVolSd_getD_finV lg sq hvol j) hz
  · rw [getD_oob]
    · rfl
    · rw [List.length_zipWith, List.length_zipWith, colLogvol_length, colVolMu_length,
        colVolSd_length, Nat.min_self, Nat.min_self]
      omega

theorem rsiF_getD_noInf (n : Nat) (s : List V) (i : Nat) :
    ((rsiF n s).getD i V.nan).noInf = true := by
  by_cases hi : i < s.length
  · rw [rsiF_getD n s i hi]
    have hg : nnV ((avgGainF n s).getD i V.nan) := by
      rcases getD_cases (avgGainF n s) i V.nan with h | h
      · rw [h]; exact Or.inl rfl
      · exact avgGainF_nnV n s _ h
    have hl : nnV ((avgLossF n s).getD i V.nan) := by
      rcases getD_cases (avgLossF n s) i V.nan with h | h
      · rw [h]; exact Or.inl rfl
      · exact avgLossF_nnV n s _ h
    rcases rsiOf_shape hg hl with h | ⟨q, _, _, heq⟩
    · rw [h]; rfl
    · rw [heq]; rfl
  · rw [getD_oob (by rw [(causal_rsiF n).len]; omega)]
    rfl

theorem colRsi_getD_noInf (n : Nat) (t : List Row) (j : Nat) :
    ((colRsi n t).getD j V.nan).noInf = true := by
  unfold colRsi
  exact @gbtOn_getD_pred Row Row.ticker (rsiF n) t (t.map Row.adj_close)
    (fun _ => True) (fun v => v.noInf = true) rfl (fun x _ => trivial)
    (fun s _ i => rsiF_getD_noInf n s i) j

theorem futRetCol_getD_noInf {t : List Row} (hadj : ∀ r ∈ t, posV r.adj_close)
    (h j : Nat) :
    ((futRetCol Row.ticker Row.adj_close h t).getD j V.nan).noInf = true := by
  unfold futRetCol
  by_cases hj : j < t.length
  · have h1 : j < (gbtOn Row.ticker (shiftNeg h) t (t.map Row.adj_close)).length := by
      rw [gbtOn_length]; exact hj
    rw [zipWith_getD _ _ _ j h1 hj]
    apply noInf_of_finV
    apply sub_finV _ (Or.inr ⟨1, rfl⟩)
    apply div_posV
    · have hp := gbtOn_getD_pred Row.ticker (shiftNeg h) t (t.map Row.adj_close)
        (Or.inl rfl) (adjColumn_posV hadj) (fun s hs i => shiftNeg_getD_posV hs i) j
      rwa [get_eq_getD _ _ h1 V.nan]
    · exact hadj _ (List.get_mem _ _ _)
  · rw [getD_oob]
    · rfl
    · rw [List.length_zipWith, gbtOn_length, Nat.min_self]
      omega

theorem mem_build_features {lg sq : ℚ → ℚ} {cfg : FeatureConfig} {t : List Row}
    {x : Row × Feats} (h : x ∈ build_features lg sq cfg t) :
    ∃ j, j < t.length ∧ x.2 = featsAt lg sq cfg t j := by
  unfold build_features at h
  rcases List.mem_map.1 h with ⟨jr, hjr, rfl⟩
  rcases jr with ⟨j, r⟩
  rcases mem_enumF hjr with ⟨k, hk, hjk, _⟩
  refine ⟨k, hk, ?_⟩
  have hjj : j = k := by omega
  subst hjj
  rfl

theorem mem_add_targets {α : Type _} {tkOf : α → String} {adj : α → V}
    {cfg : FeatureConfig} {which : TargetHorizon} {t : List α} {y : α × Targets}
    (h : y ∈ add_targets tkOf adj cfg which t) :
    ∃ j, j < t.length ∧
      y.2 = ⟨if wantsWeekly which then
               some ((futRetCol tkOf adj cfg.horizon_weekly t).getD j V.nan) else none,
             if wantsWeekly which then
               some (tgtOf ((futRetCol tkOf adj cfg.horizon_weekly t).getD j V.nan)) else none,
             if wantsMonthly which then
               some ((futRetCol tkOf adj cfg.horizon_monthly t).getD j V.nan) else none,
             if wantsMonthly which then
               some (tgtOf ((futRetCol tkOf adj cfg.horizon_monthly t).getD j V.nan))
             else none⟩ := by
  unfold add_targets at h
  rcases List.mem_map.1 h with ⟨jr, hjr, rfl⟩
  rcases jr with ⟨j, r⟩
  rcases mem_enumF hjr with ⟨k, hk, hjk, _⟩
  refine ⟨k, hk, ?_⟩
  have hjj : j = k := by omega
  subst hjj
  rfl

/-- Witness for C3 at two concrete one-row entities. -/
theorem C3_entity_isolation_witness :
    (∀ x ∈ [sampleRow "A" 0 1], x.ticker = "A") ∧
      (∀ x ∈ [sampleRow "B" 0 1], x.ticker = "B") ∧
      ("A" : String) ≠ "B" ∧
      build_features id id defaultCfg ([sampleRow "A" 0 1] ++ [sampleRow "B" 0 1]) =
        build_features id id defaultCfg [sampleRow "A" 0 1] ++
          build_features id id defaultCfg [sampleRow "B" 0 1] :=
  ⟨by decide, by decide, by decide,
   C3_entity_isolation id id defaultCfg [sampleRow "A" 0 1] [sampleRow "B" 0 1] "A" "B"
     (by decide) (by decide) (by decide)⟩

/-- C4 counterexample: a valid raw row with `low = 0` and `open = 0`
flows through the Normalizer unchanged (only `adj_close` is guarded), and
`build_features` then computes `hl_range = high/low - 1 = +∞` and
`oc_change = close/open - 1 = +∞`: the division by zero in these two
columns is propagated as infinity, not neutralized to undefined. -/
theorem C4_counterexample :
    (build_features id id defaultCfg (load_long_dataset [rawZeroLow])).map
        (fun x => (x.2.hl_range, x.2.oc_change)) = [(V.pinf, V.pinf)] := by
  with_unfolding_all decide

/-- C4 (amended): on any normalized table (whose `adj_close` is NaN or
positive and whose `volume` is never infinite, as `load_long_dataset`
guarantees), and for any square root satisfying `sq q = 0 ↔ q = 0` on
nonnegative arguments, every derived column except `hl_range` and
`oc_change` is free of infinities: returns, log-returns, momentum (where
the replace-inf guard applies), moving averages, price-to-MA ratios,
volatilities, log-volume, the volume z-score (whose `0 / 0` degenerate
case is undefined, not infinite), the oscillator, and the forward-return
target columns.  `hl_range` and `oc_change` have no guard and can be
infinite (see the counterexample). -/
theorem C4_no_infinities_amended (lg sq : ℚ → ℚ) (cfg : FeatureConfig)
    (hsq : ∀ q : ℚ, 0 ≤ q → (sq q = 0 ↔ q = 0)) (raws : List RawRow)
    (which : TargetHorizon) :
    (∀ x ∈ build_features lg sq cfg (load_long_dataset raws),
        x.2.ret_1d.noInf = true ∧ x.2.logret_1d.noInf = true ∧
        (∀ v ∈ x.2.mom_vals, v.noInf = true) ∧
        (∀ v ∈ x.2.ma_vals, v.noInf = true) ∧
        (∀ v ∈ x.2.price_to_ma_vals, v.noInf = true) ∧
        (∀ v ∈ x.2.vol_vals, v.noInf = true) ∧
        x.2.logvol.noInf = true ∧ x.2.logvol_z_63.noInf = true ∧
        x.2.rsi.noInf = true) ∧
      (∀ y ∈ add_targets Row.ticker Row.adj_close cfg which (load_long_dataset raws),
        (∀ v, y.2.future_ret_w = some v → v.noInf = true) ∧
        (∀ v, y.2.future_ret_m = some v → v.noInf = true)) := by
  have hadj : ∀ r ∈ load_long_dataset raws, posV r.adj_close :=
    fun r hr => (load_row_invariants hr).1
  have hvol : ∀ r ∈ load_long_dataset raws, r.volume.noInf = true :=
    fun r hr => (load_row_invariants hr).2
  constructor
  · intro x hx
    obtain ⟨j, hj, hfe⟩ := mem_build_features hx
    rw [hfe]
    refine ⟨?_, ?_, ?_, ?_, ?_, ?_, ?_, ?_, ?_⟩
    · exact noInf_of_finV (colRet_getD_finV hadj j)
    · exact noInf_of_finV (colLogret_getD_finV lg hadj j)
    · intro v hv
      rcases List.mem_map.1 hv with ⟨w, _, rfl⟩
      exact colMom_getD_noInf w _ j
    · intro v hv
      rcases List.mem_map.1 hv with ⟨w, _, rfl⟩
      exact noInf_of_finV (posV_finV (colMa_getD_posV hadj w j))
    · intro v hv
      rcases List.mem_map.1 hv with ⟨w, _, rfl⟩
      exact noInf_of_finV (colPma_getD_finV hadj w j)
    · intro v hv
      rcases List.mem_map.1 hv with ⟨w, _, rfl⟩
      exact noInf_of_finV (colVol_getD_finV lg sq hadj w j)
    · exact noInf_of_finV (colLogvol_getD_finV lg hvol j)
    · exact colLogvolZ_getD_noInf lg sq hsq hvol j
    · exact colRsi_getD_noInf cfg.rsi_window _ j
  · intro y hy
    obtain ⟨j, hj, hte⟩ := mem_add_targets hy
    constructor
    · intro v hv
      rw [hte] at hv
      have hv2 : (if wantsWeekly which = true then
          some ((futRetCol Row.ticker Row.adj_close cfg.horizon_weekly
            (load_long_dataset raws)).getD j V.nan) else none) = some v := hv
      by_cases hw : wantsWeekly which = true
      · rw [if_pos hw] at hv2
        injection hv2 with he
        rw [← he]
        exact futRetCol_getD_noInf hadj _ j
      · rw [if_neg hw] at hv2
        cases hv2
    · intro v hv
      rw [hte] at hv
      have hv2 : (if wantsMonthly which = true then
          some ((futRetCol Row.ticker Row.adj_close cfg.horizon_monthly
            (load_long_dataset raws)).getD j V.nan) else none) = some v := hv
      by_cases hw : wantsMonthly which = true
      · rw [if_pos hw] at hv2
        injection hv2 with he
        rw [← he]
        exact futRetCol_getD_noInf hadj _ j
      · rw [if_neg hw] at hv2
        cases hv2

/-- Witness for the amended C4: on the concrete one-row table built from
`rawZeroLow` (whose `hl_range` is infinite), the guarded columns `ret_1d`
and `logvol_z_63` are nonetheless free of infinities; the square-root
hypothesis is discharged by the identity function. -/
theorem C4_no_infinities_amended_witness :
    (featsAt id id defaultCfg [normalizeRow rawZeroLow] 0).ret_1d.noInf = true ∧
      (featsAt id id defaultCfg [normalizeRow rawZeroLow] 0).logvol_z_63.noInf = true := by
  have hload : load_long_dataset [rawZeroLow] = [normalizeRow rawZeroLow] := by
    with_unfolding_all decide
  have hmem : (normalizeRow rawZeroLow,
      featsAt id id defaultCfg [normalizeRow rawZeroLow] 0) ∈
      build_features id id defaultCfg (load_long_dataset [rawZeroLow]) := by
    rw [hload]
    exact List.mem_singleton.2 rfl
  have h := (C4_no_infinities_amended id id defaultCfg (fun q _ => Iff.rfl) [rawZeroLow]
    TargetHorizon.both).1 _ hmem
  exact ⟨h.1, h.2.2.2.2.2.2.2.1⟩

end Invest
